import Mathlib

/-!
Verification development for the C sudoku library (`src/sudoku/csudoku.c`).

The grid state (the `SuDoKu` struct) is embedded as `Grid`.  Each of the four
per-cell arrays (`o`, `v`, `p`, `c`) of 81 machine integers is packed into a
single natural number, 16 bits per cell (each C element type is at most 16
bits wide); `aget`/`aset` read and write one cell, and the lemmas
`aget_aset_self` / `aget_aset_ne` prove that the packed number behaves as an
array.  The forced queue keeps its write cursor `q_i` as the length of the
append-only list `q`; the read cursor `q_o` is `qo`, and the fill counter is
`n`.  Machine arithmetic that can wrap is modelled explicitly: the
`unsigned char` candidate count is decremented as `(c + 255) % 256`.

The recursive `SuDoKu__mark` / drain-loop pair is embedded as one
fuel-indexed interpreter `mrun` over a small command type, so that it is
structurally recursive and evaluates by kernel reduction; `none` means the
fuel ran out.  The drain loop's `ffs(self->p[i])` call relies on the popped
cell having exactly one candidate bit (the C comment at csudoku.c:141); the
embedding makes a violation of that assumption an explicit distinguished
error `SErr.queueBroken`, proved unreachable from well-formed states.  The
optional statistics graph `self->g` influences neither the grid fields nor
the returned solutions, so the solving interpreters omit it; the tracked
interpreter `rtrun` adds it back for the difficulty-estimation claims.
-/

set_option maxRecDepth 100000

/-- Row of a cell index, as in csudoku.c (`i / 9`). -/
def rowOf (i : Nat) : Nat := i / 9

/-- Column of a cell index (`i % 9`). -/
def colOf (i : Nat) : Nat := i % 9

/-- Box of a cell index (`(row / 3) * 3 + col / 3`). -/
def boxOf (i : Nat) : Nat := (i / 9 / 3) * 3 + (i % 9) / 3

/-- Modelled from the spec: the static relation table `SuDoKu__relations` is
declared in `csudoku.h`, which is not among the sources; per the spec ("for
each of 81 cells, the 20 peer cells sharing its row, column, or 3×3 box")
a cell's peers are the other cells of its row, column or box. -/
def peers (i : Nat) : List Nat :=
  (List.range 81).filter
    (fun j => decide (j ≠ i ∧ (rowOf j = rowOf i ∨ colOf j = colOf i ∨ boxOf j = boxOf i)))

/-- Read cell `i` of a packed 81-cell array (16 bits per cell). -/
def aget (a i : Nat) : Nat := (a >>> (16 * i)) &&& 65535

/-- Write cell `i` of a packed 81-cell array. -/
def aset (a i x : Nat) : Nat := a - ((aget a i) <<< (16 * i)) + (x <<< (16 * i))

/-- Pack a list of cell values (each below 2^16) into an array number,
head at cell 0. -/
def packList (l : List Nat) : Nat := l.foldr (fun x a => x + (a <<< 16)) 0

/-- Population count of the low 16 bits (the candidate mask is a C
`unsigned short int`), written with explicit fuel so that it evaluates by
kernel reduction. -/
def popCountAux : Nat → Nat → Nat
  | 0, _ => 0
  | f + 1, m => (m &&& 1) + popCountAux f (m >>> 1)

/-- Population count of a 16-bit candidate mask. -/
def popCount16 (m : Nat) : Nat := popCountAux 16 (m &&& 65535)

/-- Index of the lowest set bit plus one, 0 for 0: the C library `ffs`
applied to a (zero-extended) 16-bit mask. -/
def ffsAux : Nat → Nat → Nat
  | 0, _ => 0
  | f + 1, m => if m = 0 then 0 else if m &&& 1 = 1 then 1 else 1 + ffsAux f (m >>> 1)

/-- The C library `ffs` on a candidate mask. -/
def ffs16 (m : Nat) : Nat := ffsAux 16 (m &&& 65535)

/-- The mutable solving state of the `SuDoKu` struct: `o` = original clues,
`v` = current values, `p` = candidate bitmasks, `c` = candidate counts (all
packed 81-cell arrays), `q`/`qo` = forced queue and its read cursor (the C
write cursor `q_i` is `q.length`), `n` = number of filled cells. -/
structure Grid where
  o : Nat
  v : Nat
  p : Nat
  c : Nat
  q : List Nat
  qo : Nat
  n : Nat
deriving DecidableEq

/-- The contradiction exception of the C module, plus the distinguished
marker for the undefined empty-mask situation in the drain loop. -/
inductive SErr
  | contradiction
  | queueBroken
deriving DecidableEq

deriving instance DecidableEq for Except

/-- All 81 cells holding mask 511 (`(1 << 9) - 1`). -/
def allOpen : Nat := packList (List.replicate 81 511)

/-- All 81 cells holding count 9. -/
def allNine : Nat := packList (List.replicate 81 9)

/-- `SuDoKu__reset` (csudoku.c:30): all values 0, all 9 candidates open,
empty queue, zero fill count; `o` is preserved (here: supplied). -/
def reset (o : Nat) : Grid :=
  { o := o, v := 0, p := allOpen, c := allNine, q := [], qo := 0, n := 0 }

/-- `SuDoKu__eliminate` (csudoku.c:156): if bit `n-1` of the mask is set,
clear it and decrement the (unsigned char) count; count 0 raises the
contradiction, count 1 enqueues the cell on the forced queue. -/
def eliminate (g : Grid) (i n : Nat) : Grid × Except SErr Unit :=
  if (aget g.p i >>> (n - 1)) &&& 1 = 1 then
    let pv := aget g.p i ^^^ (1 <<< (n - 1))
    let cv := (aget g.c i + 255) % 256
    let g1 : Grid := { g with p := aset g.p i pv, c := aset g.c i cv }
    if cv = 0 then (g1, .error .contradiction)
    else if cv = 1 then ({ g1 with q := g1.q ++ [i] }, .ok ())
    else (g1, .ok ())
  else (g, .ok ())

/-- Commands of the `mark` interpreter: a `SuDoKu__mark` call, the loop
eliminating a digit from a list of peers, and the forced-queue drain loop
(csudoku.c:137-149). -/
inductive MCmd
  | mark (g : Grid) (i n : Nat)
  | elims (g : Grid) (ps : List Nat) (n : Nat)
  | drain (g : Grid)

/-- Fuel-indexed interpreter for `SuDoKu__mark` (csudoku.c:90-151): the value
check, the forbidden-assignment check, the assignment with its peer
eliminations, and the forced-queue drain; `none` = out of fuel.  The state is
returned alongside any error: as in the C code, mutations made before a
failure are never rolled back.  When a popped queue entry does not have
exactly one candidate bit, the C comment's assumption is broken and the
interpreter stops with `SErr.queueBroken`. -/
def mrun : Nat → MCmd → Option (Grid × Except SErr Unit)
  | 0, _ => none
  | fuel + 1, .mark g i n =>
    if aget g.v i = n then some (g, .ok ())
    else if (aget g.p i >>> (n - 1)) &&& 1 = 1 then
      let g1 : Grid :=
        { g with v := aset g.v i n, n := g.n + 1, p := aset g.p i 0, c := aset g.c i 0 }
      match mrun fuel (.elims g1 (peers i) n) with
      | none => none
      | some (g2, .error e) => some (g2, .error e)
      | some (g2, .ok _) => mrun fuel (.drain g2)
    else some (g, .error .contradiction)
  | fuel + 1, .elims g ps n =>
    match ps with
    | [] => some (g, .ok ())
    | j :: rest =>
      match eliminate g j n with
      | (g1, .ok _) => mrun fuel (.elims g1 rest n)
      | (g1, .error e) => some (g1, .error e)
  | fuel + 1, .drain g =>
    if g.qo < g.q.length then
      let i := g.q.getD g.qo 0
      let g1 : Grid := { g with qo := g.qo + 1 }
      if popCount16 (aget g1.p i) = 1 then
        match mrun fuel (.mark g1 i (ffs16 (aget g1.p i))) with
        | none => none
        | some (g2, .ok _) => mrun fuel (.drain g2)
        | some (g2, .error e) => some (g2, .error e)
      else some (g1, .error .queueBroken)
    else some (g, .ok ())

/-- `SuDoKu__search_min` (csudoku.c:193): minimum-remaining-values cell,
first minimum wins; `im` is an `unsigned char` initialised to `-1`, so the
returned sentinel for a grid with no unassigned cell is 255. -/
def searchMin (g : Grid) : Nat :=
  ((List.range 81).foldl
    (fun ac i =>
      if aget g.v i = 0 ∧ aget g.c i < ac.2 then (i, aget g.c i) else ac)
    (255, 10)).1

/-- Digits tried by the search loops (`for (n = 1; n < 10; n++)`). -/
def digits9 : List Nat := [1, 2, 3, 4, 5, 6, 7, 8, 9]

/-- Commands of the `resolve` search: a `SuDoKu__resolve_aux` call and its
digit loop carrying the accumulated solution list. -/
inductive RCmd
  | solve (g : Grid)
  | digits (g : Grid) (i : Nat) (ds : List Nat) (acc : List Nat)

/-- Fuel-indexed interpreter for `SuDoKu__resolve_aux` (csudoku.c:216-357),
statistics graph omitted (it never influences the grids or the returned
solutions): a complete grid yields its (packed) value snapshot; otherwise
each candidate digit of the MRV cell is marked on a copy, a contradiction
abandons the branch, and the recursive solutions are concatenated in branch
order.  A `queueBroken` abort leaves the run undefined (`none`). -/
def rrun : Nat → RCmd → Option (List Nat)
  | 0, _ => none
  | fuel + 1, .solve g =>
    if g.n = 81 then some [g.v]
    else rrun fuel (.digits g (searchMin g) digits9 [])
  | fuel + 1, .digits g i ds acc =>
    match ds with
    | [] => some acc
    | n :: rest =>
      if (aget g.p i >>> (n - 1)) &&& 1 = 1 then
        match mrun fuel (.mark g i n) with
        | none => none
        | some (_, .error .contradiction) => rrun fuel (.digits g i rest acc)
        | some (_, .error .queueBroken) => none
        | some (t, .ok _) =>
          match rrun fuel (.solve t) with
          | none => none
          | some l => rrun fuel (.digits g i rest (acc ++ l))
      else rrun fuel (.digits g i rest acc)

/-- Commands of the uniqueness counter: a `SuDoKu__unique_sol_aux` call and
its digit loop carrying the accumulated count. -/
inductive UCmd
  | solve (g : Grid)
  | digits (g : Grid) (i : Nat) (ds : List Nat) (acc : Int)

/-- Fuel-indexed interpreter for `SuDoKu__unique_sol_aux` (csudoku.c:473-513):
same recursion as `rrun` but counting solutions, propagating a negative
sub-result and returning the sentinel `-2` as soon as the count exceeds 1. -/
def urun : Nat → UCmd → Option Int
  | 0, _ => none
  | fuel + 1, .solve g =>
    if g.n = 81 then some 1
    else urun fuel (.digits g (searchMin g) digits9 0)
  | fuel + 1, .digits g i ds acc =>
    match ds with
    | [] => some acc
    | n :: rest =>
      if (aget g.p i >>> (n - 1)) &&& 1 = 1 then
        match mrun fuel (.mark g i n) with
        | none => none
        | some (_, .error .contradiction) => urun fuel (.digits g i rest acc)
        | some (_, .error .queueBroken) => none
        | some (t, .ok _) =>
          match urun fuel (.solve t) with
          | none => none
          | some sc =>
            if sc < 0 then some sc
            else if acc + sc > 1 then some (-2)
            else urun fuel (.digits g i rest (acc + sc))
      else urun fuel (.digits g i rest acc)

/-- The clue-marking loop shared by `SuDoKu_resolve` (csudoku.c:725-734) and
`SuDoKu__unique_sol` (csudoku.c:524-533): mark `o[i]` at every cell `i` with
a positive clue, stopping at the first failure. -/
def markAllF (fuel : Nat) : Grid → List Nat → Option (Grid × Except SErr Unit)
  | g, [] => some (g, .ok ())
  | g, i :: rest =>
    if aget g.o i > 0 then
      match mrun fuel (.mark g i (aget g.o i)) with
      | none => none
      | some (g1, .ok _) => markAllF fuel g1 rest
      | some (g1, .error e) => some (g1, .error e)
    else markAllF fuel g rest

/-- The clue-marking phase run from `reset` on packed clue array `o`. -/
def markPhase (fuel : Nat) (o : Nat) : Option (Grid × Except SErr Unit) :=
  markAllF fuel (reset o) (List.range 81)

/-- `SuDoKu_resolve` (csudoku.c:705-749): reset, mark the original clues
(surfacing any failure to the caller), then enumerate all solutions. -/
def resolveF (fuel : Nat) (o : Nat) : Option (Except SErr (List Nat)) :=
  match markPhase fuel o with
  | none => none
  | some (_, .error e) => some (.error e)
  | some (g, .ok _) => (rrun fuel (.solve g)).map .ok

/-- `SuDoKu__unique_sol` (csudoku.c:515-536): reset, mark the original
clues (any failure yields `-1`), then count solutions up to two. -/
def uniqueSolF (fuel : Nat) (o : Nat) : Option Int :=
  match markPhase fuel o with
  | none => none
  | some (_, .error _) => some (-1)
  | some (g, .ok _) => urun fuel (.solve g)

mutual
/-- A node of the decision tree `self->g` built when difficulty tracking is
on: the `(n, outcome)` leaves (depth, completed?) and `(n, children)`
internal nodes built by the C code.  Children are chained as a separate
forest type so that all tree functions are structurally recursive. -/
inductive GNode
  | leaf (d : Nat) (success : Bool)
  | node (d : Nat) (children : GForest)
inductive GForest
  | nil
  | cons (t : GNode) (ts : GForest)
end

/-- Append a tree at the end of a forest (`PyList_Append(sg, t->g)`). -/
def GForest.push : GForest → GNode → GForest
  | .nil, t => .cons t .nil
  | .cons u us, t => .cons u (us.push t)

mutual
/-- `SuDoKu__graph_forks` (csudoku.c:445-471): 0 on a leaf; on an internal
node, the sum over the children of (child forks + 1). -/
def graphForks : GNode → Nat
  | .leaf _ _ => 0
  | .node _ ch => graphForksL ch
def graphForksL : GForest → Nat
  | .nil => 0
  | .cons t ts => graphForksL ts + (graphForks t + 1)
end

mutual
/-- The quantity described by the spec sentence behind claim C2: the number
of internal branching nodes with more than zero children, summed recursively
over the whole tree. -/
def branchNodes : GNode → Nat
  | .leaf _ _ => 0
  | .node _ ch =>
    match ch with
    | .nil => branchNodesL .nil
    | .cons t ts => 1 + branchNodesL (.cons t ts)
def branchNodesL : GForest → Nat
  | .nil => 0
  | .cons t ts => branchNodes t + branchNodesL ts
end

mutual
/-- Number of child edges of a tree: every child of every internal node
contributes one, summed recursively. -/
def edgeCount : GNode → Nat
  | .leaf _ _ => 0
  | .node _ ch => forestLen ch + edgeCountL ch
def edgeCountL : GForest → Nat
  | .nil => 0
  | .cons t ts => edgeCount t + edgeCountL ts
def forestLen : GForest → Nat
  | .nil => 0
  | .cons _ ts => 1 + forestLen ts
end

/-- Commands of the tracked `resolve` search: a tracked
`SuDoKu__resolve_aux` call and its digit loop carrying the accumulated
solutions and the accumulated children of the current node. -/
inductive RTCmd
  | solve (g : Grid)
  | digits (g : Grid) (i : Nat) (ds : List Nat) (accL : List Nat) (accT : GForest)

/-- Tracked interpreter for `SuDoKu__resolve_aux` with `self->e` set: same
recursion as `rrun`, additionally returning the decision tree.  A complete
grid yields the `'+'` leaf at depth `self->n`; a branch whose `mark` fails
contributes the `'-'` leaf at the failed copy's fill depth (the C code
stores `Py_BuildValue("ic", self->n, '-')` in the copy's `g` at the point of
failure, csudoku.c:111 and csudoku.c:174); a successful branch contributes
the tree of its recursive call; the node collects the children in branch
order at depth `self->n`. -/
def rtrun : Nat → RTCmd → Option (List Nat × GNode)
  | 0, _ => none
  | fuel + 1, .solve g =>
    if g.n = 81 then some ([g.v], .leaf g.n true)
    else rtrun fuel (.digits g (searchMin g) digits9 [] .nil)
  | fuel + 1, .digits g i ds accL accT =>
    match ds with
    | [] => some (accL, .node g.n accT)
    | n :: rest =>
      if (aget g.p i >>> (n - 1)) &&& 1 = 1 then
        match mrun fuel (.mark g i n) with
        | none => none
        | some (t, .error .contradiction) =>
          rtrun fuel (.digits g i rest accL (accT.push (.leaf t.n false)))
        | some (_, .error .queueBroken) => none
        | some (t, .ok _) =>
          match rtrun fuel (.solve t) with
          | none => none
          | some (l, sub) => rtrun fuel (.digits g i rest (accL ++ l) (accT.push sub))
      else rtrun fuel (.digits g i rest accL accT)

/-- `SuDoKu_resolve` with difficulty tracking on: after a successful
clue-marking phase, the tracked search returns the solutions and the
decision tree that `SuDoKu_estimate` (csudoku.c:751-778) post-processes. -/
def resolveTF (fuel : Nat) (o : Nat) : Option (Except SErr (List Nat × GNode)) :=
  match markPhase fuel o with
  | none => none
  | some (_, .error e) => some (.error e)
  | some (g, .ok _) => (rtrun fuel (.solve g)).map .ok

/-- Format errors of `SuDoKu__from_string` (csudoku.c:538-586). -/
inductive FmtErr
  | invalidChar (c : Char)
  | notEnough
  | tooMuch
deriving DecidableEq

/-- The scan loop of `SuDoKu__from_string`: `i` counts significant
characters; newlines and carriage returns are skipped; once 81 significant
characters were consumed any further non-newline character stops the scan
("too much data"); digits `1`-`9` are written to `o`, the blank characters
are skipped, anything else is an invalid character. -/
def fromStrLoop : Nat → Nat → List Char → Except FmtErr Nat
  | o, i, [] => if i < 81 then .error .notEnough else .ok o
  | o, i, ch :: rest =>
    if ch = '\n' ∨ ch = '\r' then fromStrLoop o i rest
    else if 81 ≤ i then .error .tooMuch
    else if '1' ≤ ch ∧ ch ≤ '9' then
      fromStrLoop (aset o i (ch.toNat - 48)) (i + 1) rest
    else if ch = '_' ∨ ch = '-' ∨ ch = ' ' ∨ ch = '.' ∨ ch = '0' then
      fromStrLoop o (i + 1) rest
    else .error (.invalidChar ch)

/-- `SuDoKu__from_string` applied to prior clue array `o` (the C function
writes into the existing `self->o`) and the character list of the input. -/
def fromString (o : Nat) (s : List Char) : Except FmtErr Nat :=
  fromStrLoop o 0 s

/-- Significant characters of an input: everything except newlines and
carriage returns. -/
def sigChars (s : List Char) : List Char :=
  s.filter (fun ch => decide (ch ≠ '\n' ∧ ch ≠ '\r'))

/-- Characters accepted among the first 81 significant ones: digits and the
five blank characters. -/
def validChar (ch : Char) : Prop :=
  ('1' ≤ ch ∧ ch ≤ '9') ∨ ch = '_' ∨ ch = '-' ∨ ch = ' ' ∨ ch = '.' ∨ ch = '0'

instance (ch : Char) : Decidable (validChar ch) := by
  unfold validChar; infer_instance

theorem aget_eq_div_mod (a i : Nat) : aget a i = a / 2 ^ (16 * i) % 2 ^ 16 := by
  show (a >>> (16 * i)) &&& 65535 = _
  rw [Nat.shiftRight_eq_div_pow]
  have h : (65535 : Nat) = 2 ^ 16 - 1 := rfl
  rw [h, Nat.and_pow_two_sub_one_eq_mod]

theorem aget_lt (a i : Nat) : aget a i < 65536 := by
  rw [aget_eq_div_mod]
  exact Nat.mod_lt _ (by norm_num)

theorem aset_eq (a i x : Nat) :
    aset a i x = 2 ^ (16 * i) * (2 ^ 16 * (a / 2 ^ (16 * i) / 2 ^ 16) + x) + a % 2 ^ (16 * i) := by
  show a - ((aget a i) <<< (16 * i)) + (x <<< (16 * i)) = _
  rw [Nat.shiftLeft_eq, Nat.shiftLeft_eq, aget_eq_div_mod]
  set B := 2 ^ (16 * i) with hB
  set q := a / B with hq
  set r := a % B with hr
  have hqr : B * q + r = a := Nat.div_add_mod a B
  have hmod : q % 2 ^ 16 + 2 ^ 16 * (q / 2 ^ 16) = q := Nat.mod_add_div q (2 ^ 16)
  have hle : q % 2 ^ 16 * B ≤ B * q := by
    rw [Nat.mul_comm]
    exact Nat.mul_le_mul_left B (Nat.mod_le q _)
  have h1 : a - q % 2 ^ 16 * B = B * (2 ^ 16 * (q / 2 ^ 16)) + r := by
    have ha : a = B * q + r := hqr.symm
    have hq2 : B * q = B * (q % 2 ^ 16) + B * (2 ^ 16 * (q / 2 ^ 16)) := by
      rw [← Nat.mul_add, hmod]
    rw [Nat.mul_comm (q % 2 ^ 16) B, ha, hq2]
    omega
  rw [h1]
  ring

theorem aget_aset_self (a i x : Nat) (hx : x < 65536) : aget (aset a i x) i = x := by
  rw [aget_eq_div_mod, aset_eq]
  set B := 2 ^ (16 * i) with hB
  have hBpos : 0 < B := Nat.pos_pow_of_pos _ (by norm_num)
  have hr : a % B / B = 0 := Nat.div_eq_of_lt (Nat.mod_lt _ hBpos)
  rw [Nat.mul_add_div hBpos, hr, Nat.add_zero, Nat.mul_add_mod]
  exact Nat.mod_eq_of_lt hx

theorem aget_aset_ne (a : Nat) {i j : Nat} (x : Nat) (hx : x < 65536) (h : j ≠ i) :
    aget (aset a i x) j = aget a j := by
  rw [aget_eq_div_mod, aget_eq_div_mod, aset_eq]
  set B := 2 ^ (16 * i) with hB
  have hBpos : 0 < B := Nat.pos_pow_of_pos _ (by norm_num)
  rcases Nat.lt_or_ge j i with hj | hj
  · -- j < i : only the low part a % B matters at cell j
    set Bj := 2 ^ (16 * j) with hBj
    have hBjpos : 0 < Bj := Nat.pos_pow_of_pos _ (by norm_num)
    have hsplit : B = Bj * (2 ^ 16 * 2 ^ (16 * (i - j - 1))) := by
      rw [hB, hBj, ← Nat.pow_add, ← Nat.pow_add]
      congr 1
      omega
    set K := 2 ^ 16 * 2 ^ (16 * (i - j - 1)) with hK
    have expand : ∀ y r0, (B * y + r0) / Bj % 2 ^ 16 = r0 / Bj % 2 ^ 16 := by
      intro y r0
      rw [hsplit, Nat.mul_assoc, Nat.mul_add_div hBjpos]
      rw [hK, Nat.mul_assoc, Nat.add_comm, Nat.add_mul_mod_self_left]
    rw [expand]
    conv_rhs =>
      rw [← Nat.div_add_mod a B]
    rw [expand]
  · -- j > i : only the high part matters at cell j
    have hij : i < j := Nat.lt_of_le_of_ne hj (fun e => h e.symm)
    set K := 2 ^ (16 * (j - i) - 16) with hK
    have hsplit : 2 ^ (16 * j) = B * (2 ^ 16 * K) := by
      rw [hB, hK, ← Nat.pow_add, ← Nat.pow_add]
      congr 1
      omega
    have hrB : a % B < B := Nat.mod_lt _ hBpos
    have hdivB : (B * (2 ^ 16 * (a / B / 2 ^ 16) + x) + a % B) / B
        = 2 ^ 16 * (a / B / 2 ^ 16) + x := by
      rw [Nat.mul_add_div hBpos, Nat.div_eq_of_lt hrB, Nat.add_zero]
    rw [hsplit, ← Nat.div_div_eq_div_mul, hdivB, ← Nat.div_div_eq_div_mul]
    have hx16 : x < 2 ^ 16 := hx
    have hdiv16 : (2 ^ 16 * (a / B / 2 ^ 16) + x) / 2 ^ 16 = a / B / 2 ^ 16 := by
      rw [Nat.mul_add_div (by norm_num), Nat.div_eq_of_lt hx16, Nat.add_zero]
    rw [hdiv16]
    rw [← Nat.div_div_eq_div_mul, ← Nat.div_div_eq_div_mul]

/-- Frame facts holding between the entry state and the result state of any
propagation step, error or not: the clue array is untouched, the queue only
grows at its end, the read cursor only advances, and a cell whose candidate
mask is empty keeps its mask empty and its value unchanged. -/
def StepOK (g g2 : Grid) : Prop :=
  g2.o = g.o ∧ (∃ t, g2.q = g.q ++ t) ∧ g.qo ≤ g2.qo ∧
  (∀ j, aget g.p j = 0 → aget g2.p j = 0 ∧ aget g2.v j = aget g.v j)

theorem stepOK_rfl (g : Grid) : StepOK g g :=
  ⟨rfl, ⟨[], (List.append_nil _).symm⟩, Nat.le_refl _, fun _ h => ⟨h, rfl⟩⟩

theorem stepOK_trans {a b c : Grid} (h1 : StepOK a b) (h2 : StepOK b c) : StepOK a c := by
  obtain ⟨ho1, ⟨t1, hq1⟩, hqo1, hf1⟩ := h1
  obtain ⟨ho2, ⟨t2, hq2⟩, hqo2, hf2⟩ := h2
  refine ⟨ho2.trans ho1, ⟨t1 ++ t2, ?_⟩, Nat.le_trans hqo1 hqo2, fun j hj => ?_⟩
  · rw [hq2, hq1, List.append_assoc]
  · obtain ⟨hp1, hv1⟩ := hf1 j hj
    obtain ⟨hp2, hv2⟩ := hf2 j hp1
    exact ⟨hp2, hv2.trans hv1⟩

/-- A set bit in a 16-bit mask pins the tested position below 16. -/
theorem bit_set_pos_lt (m k : Nat) (hm : m < 65536) (hbit : (m >>> k) &&& 1 = 1) :
    k < 16 := by
  by_contra hk
  have h0 : m >>> k = 0 := by
    rw [Nat.shiftRight_eq_div_pow]
    apply Nat.div_eq_of_lt
    calc m < 65536 := hm
    _ = 2 ^ 16 := by norm_num
    _ ≤ 2 ^ k := Nat.pow_le_pow_right (by norm_num) (by omega)
  rw [h0] at hbit
  simp at hbit

/-- The candidate mask written by `eliminate` stays a 16-bit value: the set
bit pins the digit. -/
theorem elim_pv_lt (m n : Nat) (hm : m < 65536)
    (hbit : (m >>> (n - 1)) &&& 1 = 1) : m ^^^ (1 <<< (n - 1)) < 65536 := by
  have hk := bit_set_pos_lt m (n - 1) hm hbit
  have hb : 1 <<< (n - 1) < 65536 := by
    rw [Nat.one_shiftLeft]
    calc 2 ^ (n - 1) ≤ 2 ^ 15 := Nat.pow_le_pow_right (by norm_num) (by omega)
    _ < 65536 := by norm_num
  have h16 : (65536 : Nat) = 2 ^ 16 := by norm_num
  rw [h16] at hm hb ⊢
  exact Nat.xor_lt_two_pow hm hb

/-- The candidate count written by `eliminate` is a 16-bit value. -/
theorem elim_cv_lt (c : Nat) : (c + 255) % 256 < 65536 := by
  have := Nat.mod_lt (c + 255) (y := 256) (by norm_num)
  omega

theorem eliminate_stepOK (g : Grid) (i n : Nat) :
    StepOK g (eliminate g i n).1 := by
  unfold eliminate
  split
  · rename_i hbit
    dsimp only
    have hpv := elim_pv_lt (aget g.p i) n (aget_lt g.p i) hbit
    have hfr : ∀ j, aget g.p j = 0 →
        aget (aset g.p i (aget g.p i ^^^ 1 <<< (n - 1))) j = 0 := by
      intro j hj
      rcases eq_or_ne j i with h | h
      · subst h
        rw [hj] at hbit
        simp [Nat.zero_shiftRight] at hbit
      · rw [aget_aset_ne _ _ hpv h, hj]
    split
    · exact ⟨rfl, ⟨[], (List.append_nil _).symm⟩, Nat.le_refl _, fun j hj => ⟨hfr j hj, rfl⟩⟩
    · split
      · exact ⟨rfl, ⟨[i], rfl⟩, Nat.le_refl _, fun j hj => ⟨hfr j hj, rfl⟩⟩
      · exact ⟨rfl, ⟨[], (List.append_nil _).symm⟩, Nat.le_refl _, fun j hj => ⟨hfr j hj, rfl⟩⟩
  · exact stepOK_rfl g

/-- Entry grid of a propagation command. -/
def MCmd.grid : MCmd → Grid
  | .mark g _ _ => g
  | .elims g _ _ => g
  | .drain g => g

/-- Digits of a propagation command (9 for a drain, whose own marks always
use real digits). -/
def MCmd.digit : MCmd → Nat
  | .mark _ _ n => n
  | .elims _ _ n => n
  | .drain _ => 9

/-- The frame facts hold across every propagation run whose digit is a real
one (the drain case derives its own digits from singleton masks below 512,
which `ffsAux` keeps at 16 or less; 16-bit-ness of written values is all the
frame argument needs, so a crude bound on `ffs16` suffices). -/
theorem ffs16_le (m : Nat) : ffs16 m ≤ 16 := by
  show ffsAux 16 (m &&& 65535) ≤ 16
  have h : ∀ f m2, ffsAux f m2 ≤ f := by
    intro f
    induction f with
    | zero => intro m2; exact Nat.le_refl 0
    | succ f ih =>
      intro m2
      show (if m2 = 0 then 0 else if m2 &&& 1 = 1 then 1 else 1 + ffsAux f (m2 >>> 1)) ≤ f + 1
      split
      · exact Nat.zero_le _
      · split
        · omega
        · have := ih (m2 >>> 1)
          omega
  exact h 16 _

/-- The assignment half of a successful `mark`: the grid after
`v[i] = n; n += 1; p[i] = 0; c[i] = 0`. -/
def assignGrid (g : Grid) (i n : Nat) : Grid :=
  { g with v := aset g.v i n, n := g.n + 1, p := aset g.p i 0, c := aset g.c i 0 }

theorem assign_stepOK (g : Grid) (i n : Nat)
    (hbit : (aget g.p i >>> (n - 1)) &&& 1 = 1) : StepOK g (assignGrid g i n) := by
  refine ⟨rfl, ⟨[], (List.append_nil _).symm⟩, Nat.le_refl _, fun j hj => ?_⟩
  have hji : j ≠ i := by
    intro h
    subst h
    rw [hj] at hbit
    simp [Nat.zero_shiftRight] at hbit
  unfold assignGrid
  dsimp only
  constructor
  · rw [aget_aset_ne _ _ (by norm_num) hji, hj]
  · have hk := bit_set_pos_lt (aget g.p i) (n - 1) (aget_lt g.p i) hbit
    have hn : n < 65536 := by omega
    rw [aget_aset_ne _ _ hn hji]

/-- The frame facts hold across every propagation run, whatever the result:
by induction over the fuel, composing the assignment, elimination and drain
steps. -/
theorem mrun_pure (fuel : Nat) : ∀ cmd g2 r,
    mrun fuel cmd = some (g2, r) → StepOK cmd.grid g2 := by
  induction fuel with
  | zero => intro cmd g2 r h; simp [mrun] at h
  | succ f ih =>
    intro cmd g2 r h
    match cmd with
    | .mark g i n =>
      rw [mrun.eq_def] at h
      dsimp only at h
      split at h
      · -- value already n
        simp only [Option.some.injEq, Prod.mk.injEq] at h
        obtain ⟨rfl, -⟩ := h
        exact stepOK_rfl g
      · split at h
        · rename_i hne hbit
          have hstep1 : StepOK g (assignGrid g i n) := assign_stepOK g i n hbit
          split at h
          · exact Option.noConfusion h
          · rename_i g2e e heq
            have hstep2 := ih _ _ _ heq
            simp only [Option.some.injEq, Prod.mk.injEq] at h
            obtain ⟨rfl, -⟩ := h
            exact stepOK_trans hstep1 hstep2
          · rename_i g2e u heq
            have h1 := ih _ _ _ heq
            have h2 := ih _ _ _ h
            exact stepOK_trans hstep1 (stepOK_trans h1 h2)
        · simp only [Option.some.injEq, Prod.mk.injEq] at h
          obtain ⟨rfl, -⟩ := h
          exact stepOK_rfl g
    | .elims g ps n =>
      rw [mrun.eq_def] at h
      dsimp only at h
      split at h
      · simp only [Option.some.injEq, Prod.mk.injEq] at h
        obtain ⟨rfl, -⟩ := h
        exact stepOK_rfl g
      · rename_i j rest
        split at h
        · rename_i g1 u heq
          have hstep : StepOK g g1 := by
            have hst := eliminate_stepOK g j n
            rw [heq] at hst
            exact hst
          exact stepOK_trans hstep (ih _ _ _ h)
        · rename_i g1 e heq
          have hstep : StepOK g g1 := by
            have hst := eliminate_stepOK g j n
            rw [heq] at hst
            exact hst
          simp only [Option.some.injEq, Prod.mk.injEq] at h
          obtain ⟨rfl, -⟩ := h
          exact hstep
    | .drain g =>
      rw [mrun.eq_def] at h
      dsimp only at h
      split at h
      · rename_i hlt
        have hcur : StepOK g { g with qo := g.qo + 1 } :=
          ⟨rfl, ⟨[], (List.append_nil _).symm⟩, Nat.le_succ _, fun _ hj => ⟨hj, rfl⟩⟩
        split at h
        · split at h
          · exact Option.noConfusion h
          · rename_i g2e u heq
            have h1 := ih _ _ _ heq
            have h2 := ih _ _ _ h
            exact stepOK_trans hcur (stepOK_trans h1 h2)
          · rename_i g2e e heq
            have h1 := ih _ _ _ heq
            simp only [Option.some.injEq, Prod.mk.injEq] at h
            obtain ⟨rfl, -⟩ := h
            exact stepOK_trans hcur h1
        · simp only [Option.some.injEq, Prod.mk.injEq] at h
          obtain ⟨rfl, -⟩ := h
          exact hcur
      · simp only [Option.some.injEq, Prod.mk.injEq] at h
        obtain ⟨rfl, -⟩ := h
        exact stepOK_rfl g

/-- A raw C-style bit test in terms of `Nat.testBit`. -/
theorem raw_bit_eq (m j : Nat) : (m >>> j) &&& 1 = (if m.testBit j then 1 else 0) := by
  rw [Nat.and_one_is_mod, Nat.shiftRight_eq_div_pow, Nat.testBit_to_div_mod]
  rcases Nat.mod_two_eq_zero_or_one (m / 2 ^ j) with h | h <;> simp [h]

/-- Clearing one bit by xor leaves every other bit untouched. -/
theorem xor_bit_other (m k b : Nat) (hb : b ≠ k) :
    ((m ^^^ (1 <<< k)) >>> b) &&& 1 = (m >>> b) &&& 1 := by
  rw [raw_bit_eq, raw_bit_eq, Nat.one_shiftLeft, Nat.testBit_xor,
    Nat.testBit_two_pow_of_ne (fun h => hb h.symm)]
  simp

/-- Xor with a set bit clears it. -/
theorem xor_bit_self (m k : Nat) (hbit : (m >>> k) &&& 1 = 1) :
    ((m ^^^ (1 <<< k)) >>> k) &&& 1 = 0 := by
  have hset : m.testBit k = true := by
    rw [raw_bit_eq] at hbit
    split at hbit
    · assumption
    · exact absurd hbit (by norm_num)
  rw [raw_bit_eq, Nat.one_shiftLeft, Nat.testBit_xor, hset, Nat.testBit_two_pow_self]
  simp

theorem popCountAux_eq_sum (f : Nat) : ∀ m, popCountAux f m = ∑ j ∈ Finset.range f, ((m >>> j) &&& 1) := by
  induction f with
  | zero => intro m; simp [popCountAux]
  | succ f ih =>
    intro m
    show (m &&& 1) + popCountAux f (m >>> 1) = _
    rw [ih (m >>> 1), Finset.sum_range_succ']
    have h1 : ∑ j ∈ Finset.range f, ((m >>> (j + 1)) &&& 1)
        = ∑ j ∈ Finset.range f, (((m >>> 1) >>> j) &&& 1) :=
      Finset.sum_congr rfl fun j _ => by rw [Nat.add_comm j 1, Nat.shiftRight_add]
    rw [h1, Nat.shiftRight_zero]
    omega

theorem popCount16_eq_sum (m : Nat) (hm : m < 65536) :
    popCount16 m = ∑ j ∈ Finset.range 16, ((m >>> j) &&& 1) := by
  show popCountAux 16 (m &&& 65535) = _
  have h : m &&& 65535 = m := by
    have h16 : (65535 : Nat) = 2 ^ 16 - 1 := by norm_num
    have hm2 : m < 2 ^ 16 := by norm_num at hm ⊢; omega
    rw [h16, Nat.and_pow_two_sub_one_of_lt_two_pow hm2]
  rw [h, popCountAux_eq_sum]

/-- Clearing a set bit of a 9-bit mask keeps it a 9-bit mask and decrements
its population count. -/
theorem mask_clear (m k : Nat) (hm : m < 512) (hbit : (m >>> k) &&& 1 = 1) :
    (m ^^^ (1 <<< k)) < 512 ∧ popCount16 (m ^^^ (1 <<< k)) + 1 = popCount16 m := by
  have hk : k < 9 := by
    have := bit_set_pos_lt m k (by omega) hbit
    by_contra hk9
    have h0 : m >>> k = 0 := by
      rw [Nat.shiftRight_eq_div_pow]
      apply Nat.div_eq_of_lt
      calc m < 512 := hm
      _ = 2 ^ 9 := by norm_num
      _ ≤ 2 ^ k := Nat.pow_le_pow_right (by norm_num) (by omega)
    rw [h0] at hbit
    simp at hbit
  have hlt : 1 <<< k < 512 := by
    rw [Nat.one_shiftLeft]
    calc 2 ^ k ≤ 2 ^ 8 := Nat.pow_le_pow_right (by norm_num) (by omega)
    _ < 512 := by norm_num
  have h512 : (512 : Nat) = 2 ^ 9 := by norm_num
  have hxor : m ^^^ (1 <<< k) < 512 := by
    rw [h512] at hm hlt ⊢
    exact Nat.xor_lt_two_pow hm hlt
  refine ⟨hxor, ?_⟩
  have hm16 : m < 65536 := by omega
  have hxor16 : m ^^^ (1 <<< k) < 65536 := by omega
  rw [popCount16_eq_sum _ hxor16, popCount16_eq_sum _ hm16]
  have hkmem : k ∈ Finset.range 16 := Finset.mem_range.mpr (by omega)
  rw [← Finset.add_sum_erase _ _ hkmem, ← Finset.add_sum_erase _ _ hkmem]
  have hself := xor_bit_self m k hbit
  have hsum : ∑ j ∈ (Finset.range 16).erase k, (((m ^^^ (1 <<< k)) >>> j) &&& 1)
      = ∑ j ∈ (Finset.range 16).erase k, ((m >>> j) &&& 1) :=
    Finset.sum_congr rfl fun j hj => xor_bit_other m k j (Finset.ne_of_mem_erase hj)
  simp only [hself, hsum, hbit]
  omega

set_option maxHeartbeats 1000000

/-- A 9-bit mask has at most 9 candidates. -/
theorem popCount16_le9 : ∀ m < 512, popCount16 m ≤ 9 := by decide

/-- A 9-bit mask has no candidate exactly when it is zero. -/
theorem popCount16_zero : ∀ m < 512, (popCount16 m = 0 ↔ m = 0) := by decide

/-- On a singleton 9-bit mask, `ffs` produces a digit 1..9 whose bit is the
set one. -/
theorem ffs_singleton : ∀ m < 512, popCount16 m = 1 →
    1 ≤ ffs16 m ∧ ffs16 m ≤ 9 ∧ (m >>> (ffs16 m - 1)) &&& 1 = 1 := by decide

/-- Number of assigned cells of a grid. -/
def countAssigned (g : Grid) : Nat :=
  ((List.range 81).filter (fun i => decide (aget g.v i ≠ 0))).length

/-- Counting a pointwise-equal-except-one predicate where the exception flips
from false to true adds one, on a duplicate-free list. -/
theorem filter_length_flip {l : List Nat} {f f2 : Nat → Bool} (i : Nat)
    (hmem : i ∈ l) (hnd : l.Nodup)
    (hothers : ∀ j, j ∈ l → j ≠ i → f2 j = f j)
    (hi : f i = false) (hi2 : f2 i = true) :
    (l.filter f2).length = (l.filter f).length + 1 := by
  induction l with
  | nil => cases hmem
  | cons a t ih =>
    rcases List.mem_cons.mp hmem with heq | hat
    · subst heq
      have hnot : i ∉ t := (List.nodup_cons.mp hnd).1
      have hsame : t.filter f2 = t.filter f := by
        apply List.filter_congr
        intro j hj
        exact hothers j (List.mem_cons_of_mem _ hj) (fun h => hnot (h ▸ hj))
      simp [List.filter_cons, hi, hi2, hsame]
    · have hai : a ≠ i := by
        intro h
        subst h
        exact (List.nodup_cons.mp hnd).1 hat
      have ha2 : f2 a = f a := hothers a (List.mem_cons_self _ _) hai
      have ht := ih hat (List.nodup_cons.mp hnd).2
        (fun j hj hji => hothers j (List.mem_cons_of_mem _ hj) hji)
      rcases h : f a with _ | _ <;>
        simp [List.filter_cons, ha2, h, ht]

/-- Base well-formedness of a grid state: 9-bit masks, counts in sync with
the masks (`candidateCount[i] == popcount(candidates[i])`), assigned cells
with cleared masks and counts, values at most 9, fill counter equal to the
number of assigned cells, queue entries in range. -/
structure WFbase (g : Grid) : Prop where
  pLt : ∀ i < 81, aget g.p i < 512
  cSync : ∀ i < 81, aget g.c i = popCount16 (aget g.p i)
  assignedP : ∀ i < 81, aget g.v i ≠ 0 → aget g.p i = 0
  vLe : ∀ i < 81, aget g.v i ≤ 9
  nCount : g.n = countAssigned g
  qLt : ∀ e ∈ g.q, e < 81

theorem wfbase_iff (g : Grid) : WFbase g ↔
    ((∀ i < 81, aget g.p i < 512) ∧
     (∀ i < 81, aget g.c i = popCount16 (aget g.p i)) ∧
     (∀ i < 81, aget g.v i ≠ 0 → aget g.p i = 0) ∧
     (∀ i < 81, aget g.v i ≤ 9) ∧
     g.n = countAssigned g ∧
     (∀ e ∈ g.q, e < 81)) :=
  ⟨fun h => ⟨h.pLt, h.cSync, h.assignedP, h.vLe, h.nCount, h.qLt⟩,
   fun h => ⟨h.1, h.2.1, h.2.2.1, h.2.2.2.1, h.2.2.2.2.1, h.2.2.2.2.2⟩⟩

instance (g : Grid) : Decidable (WFbase g) :=
  decidable_of_iff _ (wfbase_iff g).symm

/-- Peers are cells below 81. -/
theorem peers_lt (i : Nat) : ∀ j ∈ peers i, j < 81 := by
  intro j hj
  have := List.mem_filter.mp hj
  exact List.mem_range.mp this.1

/-- Membership in the peer list. -/
theorem peers_mem_iff (i j : Nat) : j ∈ peers i ↔
    (j < 81 ∧ j ≠ i ∧ (rowOf j = rowOf i ∨ colOf j = colOf i ∨ boxOf j = boxOf i)) := by
  unfold peers
  rw [List.mem_filter, List.mem_range, decide_eq_true_iff]

/-- The peer relation is symmetric on the board. -/
theorem peers_symm (i j : Nat) (hi : i < 81) (hj : j ∈ peers i) : i ∈ peers j := by
  rw [peers_mem_iff] at hj ⊢
  obtain ⟨h1, h2, h3⟩ := hj
  refine ⟨hi, fun h => h2 h.symm, ?_⟩
  rcases h3 with h | h | h
  · exact Or.inl h.symm
  · exact Or.inr (Or.inl h.symm)
  · exact Or.inr (Or.inr h.symm)

/-- `eliminate` preserves base well-formedness, also when it fails. -/
theorem eliminate_wfbase (g : Grid) (i n : Nat) (hi : i < 81) (hwf : WFbase g) :
    WFbase (eliminate g i n).1 := by
  unfold eliminate
  split
  · rename_i hbit
    dsimp only
    set m := aget g.p i with hm
    have hmlt : m < 512 := hwf.pLt i hi
    obtain ⟨hpv512, hpc⟩ := mask_clear m (n - 1) hmlt hbit
    have hpvlt : m ^^^ 1 <<< (n - 1) < 65536 := by omega
    have hcvlt : (aget g.c i + 255) % 256 < 65536 := elim_cv_lt _
    have hci : aget g.c i = popCount16 m := hwf.cSync i hi
    have hpcle : popCount16 m ≤ 9 := popCount16_le9 m hmlt
    have hcv : (aget g.c i + 255) % 256 = popCount16 (m ^^^ 1 <<< (n - 1)) := by
      rw [hci]
      omega
    have hcore : WFbase
        { g with p := aset g.p i (m ^^^ 1 <<< (n - 1)), c := aset g.c i ((aget g.c i + 255) % 256) } := by
      refine ⟨?_, ?_, ?_, hwf.vLe, ?_, hwf.qLt⟩
      · intro j hj
        rcases eq_or_ne j i with rfl | hne
        · rw [aget_aset_self _ _ _ hpvlt]
          exact hpv512
        · rw [aget_aset_ne _ _ hpvlt hne]
          exact hwf.pLt j hj
      · intro j hj
        rcases eq_or_ne j i with rfl | hne
        · rw [aget_aset_self _ _ _ hpvlt, aget_aset_self _ _ _ hcvlt, hcv]
        · rw [aget_aset_ne _ _ hpvlt hne, aget_aset_ne _ _ hcvlt hne]
          exact hwf.cSync j hj
      · intro j hj hv
        rcases eq_or_ne j i with rfl | hne
        · exfalso
          have hp0 := hwf.assignedP j hj hv
          rw [← hm] at hp0
          rw [hp0] at hbit
          simp [Nat.zero_shiftRight] at hbit
        · rw [aget_aset_ne _ _ hpvlt hne]
          exact hwf.assignedP j hj hv
      · exact hwf.nCount
    split
    · exact hcore
    · split
      · exact ⟨hcore.pLt, hcore.cSync, hcore.assignedP, hcore.vLe, hcore.nCount, by
          intro e he
          rcases List.mem_append.mp he with h | h
          · exact hwf.qLt e h
          · rw [List.mem_singleton.mp h]
            exact hi⟩
      · exact hcore
  · exact hwf

/-- The assignment half of a successful `mark` preserves base
well-formedness and increments the fill counter in sync. -/
theorem assign_wfbase (g : Grid) (i n : Nat) (hi : i < 81) (hn1 : 1 ≤ n) (hn9 : n ≤ 9)
    (hbit : (aget g.p i >>> (n - 1)) &&& 1 = 1) (hwf : WFbase g) :
    WFbase (assignGrid g i n) := by
  have hv0 : aget g.v i = 0 := by
    by_contra hv
    have hp0 := hwf.assignedP i hi hv
    rw [hp0] at hbit
    simp [Nat.zero_shiftRight] at hbit
  have hnlt : n < 65536 := by omega
  unfold assignGrid
  refine ⟨?_, ?_, ?_, ?_, ?_, hwf.qLt⟩
  · intro j hj
    dsimp only
    rcases eq_or_ne j i with rfl | hne
    · rw [aget_aset_self _ _ _ (by norm_num)]
      norm_num
    · rw [aget_aset_ne _ _ (by norm_num) hne]
      exact hwf.pLt j hj
  · intro j hj
    dsimp only
    rcases eq_or_ne j i with rfl | hne
    · rw [aget_aset_self _ _ _ (by norm_num), aget_aset_self _ _ _ (by norm_num)]
      rfl
    · rw [aget_aset_ne _ _ (by norm_num) hne, aget_aset_ne _ _ (by norm_num) hne]
      exact hwf.cSync j hj
  · intro j hj _
    dsimp only
    rcases eq_or_ne j i with rfl | hne
    · rw [aget_aset_self _ _ _ (by norm_num)]
    · rw [aget_aset_ne _ _ (by norm_num) hne]
      exact hwf.assignedP j hj (by
        rename_i hv
        rwa [aget_aset_ne _ _ hnlt hne] at hv)
  · intro j hj
    dsimp only
    rcases eq_or_ne j i with rfl | hne
    · rw [aget_aset_self _ _ _ hnlt]
      exact hn9
    · rw [aget_aset_ne _ _ hnlt hne]
      exact hwf.vLe j hj
  · dsimp only
    rw [hwf.nCount]
    have hflip := @filter_length_flip (List.range 81)
      (fun j => decide (aget g.v j ≠ 0))
      (fun j => decide (aget (aset g.v i n) j ≠ 0)) i
      (List.mem_range.mpr hi) (List.nodup_range 81)
      (fun j _ hji => by simp only [aget_aset_ne _ _ hnlt hji])
      (by simp [hv0]) (by simp [aget_aset_self _ _ _ hnlt]; omega)
    show countAssigned g + 1 = countAssigned { g with v := aset g.v i n }
    unfold countAssigned
    dsimp only
    omega

theorem getD_mem_of_lt {l : List Nat} {n : Nat} (h : n < l.length) (d : Nat) :
    l.getD n d ∈ l := by
  rw [List.getD_eq_getElem?_getD, List.getElem?_eq_getElem h, Option.getD_some]
  exact List.getElem_mem h

/-- Well-formedness precondition of a propagation command: a well-formed
entry grid, a cell in range, a digit 1..9 (for a peer list: all cells in
range). -/
def MPre : MCmd → Prop
  | .mark g i n => WFbase g ∧ i < 81 ∧ 1 ≤ n ∧ n ≤ 9
  | .elims g ps n => WFbase g ∧ (∀ j ∈ ps, j < 81) ∧ 1 ≤ n ∧ n ≤ 9
  | .drain g => WFbase g

/-- Base well-formedness is preserved by every propagation run, also on
failure. -/
theorem mrun_wfbase (fuel : Nat) : ∀ cmd g2 r,
    MPre cmd → mrun fuel cmd = some (g2, r) → WFbase g2 := by
  induction fuel with
  | zero => intro cmd g2 r _ h; simp [mrun] at h
  | succ f ih =>
    intro cmd g2 r hpre h
    match cmd with
    | .mark g i n =>
      obtain ⟨hwf, hi, hn1, hn9⟩ := hpre
      rw [mrun.eq_def] at h
      dsimp only at h
      split at h
      · simp only [Option.some.injEq, Prod.mk.injEq] at h
        obtain ⟨rfl, -⟩ := h
        exact hwf
      · split at h
        · rename_i hne hbit
          have hwf1 : WFbase (assignGrid g i n) := assign_wfbase g i n hi hn1 hn9 hbit hwf
          have hpre1 : MPre (.elims (assignGrid g i n) (peers i) n) :=
            ⟨hwf1, peers_lt i, hn1, hn9⟩
          split at h
          · exact Option.noConfusion h
          · rename_i g2e e heq
            simp only [Option.some.injEq, Prod.mk.injEq] at h
            obtain ⟨rfl, -⟩ := h
            exact ih _ _ _ hpre1 heq
          · rename_i g2e u heq
            exact ih _ _ _ (by exact ih _ _ _ hpre1 heq) h
        · simp only [Option.some.injEq, Prod.mk.injEq] at h
          obtain ⟨rfl, -⟩ := h
          exact hwf
    | .elims g ps n =>
      obtain ⟨hwf, hps, hn1, hn9⟩ := hpre
      rw [mrun.eq_def] at h
      dsimp only at h
      split at h
      · simp only [Option.some.injEq, Prod.mk.injEq] at h
        obtain ⟨rfl, -⟩ := h
        exact hwf
      · rename_i j rest
        have hj : j < 81 := hps j (List.mem_cons_self _ _)
        have hwfe : WFbase (eliminate g j n).1 := eliminate_wfbase g j n hj hwf
        split at h
        · rename_i g1 u heq
          rw [heq] at hwfe
          exact ih _ _ _ (by exact ⟨hwfe, fun x hx => hps x (List.mem_cons_of_mem _ hx), hn1, hn9⟩) h
        · rename_i g1 e heq
          rw [heq] at hwfe
          simp only [Option.some.injEq, Prod.mk.injEq] at h
          obtain ⟨rfl, -⟩ := h
          exact hwfe
    | .drain g =>
      have hwf : WFbase g := hpre
      rw [mrun.eq_def] at h
      dsimp only at h
      split at h
      · rename_i hlt
        have hg1 : WFbase { g with qo := g.qo + 1 } :=
          ⟨hwf.pLt, hwf.cSync, hwf.assignedP, hwf.vLe, hwf.nCount, hwf.qLt⟩
        have hilt : g.q.getD g.qo 0 < 81 := hwf.qLt _ (getD_mem_of_lt hlt 0)
        split at h
        · rename_i hpc
          have hplt : aget g.p (g.q.getD g.qo 0) < 512 := hwf.pLt _ hilt
          obtain ⟨hf1, hf9, -⟩ := ffs_singleton _ hplt hpc
          split at h
          · exact Option.noConfusion h
          · rename_i g2e u heq
            exact ih _ _ _ (by exact ih _ _ _ (by exact ⟨hg1, hilt, hf1, hf9⟩) heq) h
          · rename_i g2e e heq
            simp only [Option.some.injEq, Prod.mk.injEq] at h
            obtain ⟨rfl, -⟩ := h
            exact ih _ _ _ (by exact ⟨hg1, hilt, hf1, hf9⟩) heq
        · simp only [Option.some.injEq, Prod.mk.injEq] at h
          obtain ⟨rfl, -⟩ := h
          exact hg1
      · simp only [Option.some.injEq, Prod.mk.injEq] at h
        obtain ⟨rfl, -⟩ := h
        exact hwf

/-- Claim C4: for every grid state, cell `i` and digit `n` in 1..9,
`eliminate` is a no-op when bit `n-1` of the mask is already clear;
otherwise it clears that bit and decrements (modulo 256, the C type being
`unsigned char`; an ordinary decrement whenever the count is positive and
below 256) the candidate count, fails with the contradiction exactly when
the new count is 0, and appends `i` to the forced queue exactly when the
new count is 1. -/
theorem eliminate_spec (g : Grid) (i n : Nat) (h1 : 1 ≤ n) (h9 : n ≤ 9) :
    ((aget g.p i >>> (n - 1)) &&& 1 ≠ 1 → eliminate g i n = (g, .ok ())) ∧
    ((aget g.p i >>> (n - 1)) &&& 1 = 1 →
      aget (eliminate g i n).1.p i = aget g.p i ^^^ (1 <<< (n - 1)) ∧
      aget (eliminate g i n).1.c i = (aget g.c i + 255) % 256 ∧
      (1 ≤ aget g.c i → aget g.c i < 256 →
        aget (eliminate g i n).1.c i = aget g.c i - 1) ∧
      ((eliminate g i n).2 = .error .contradiction ↔ (aget g.c i + 255) % 256 = 0) ∧
      ((eliminate g i n).1.q = g.q ++ [i] ↔ (aget g.c i + 255) % 256 = 1)) := by
  constructor
  · intro hbit
    unfold eliminate
    rw [if_neg hbit]
  · intro hbit
    have hpv : aget g.p i ^^^ 1 <<< (n - 1) < 65536 :=
      elim_pv_lt (aget g.p i) n (aget_lt g.p i) hbit
    have hcv : (aget g.c i + 255) % 256 < 65536 := elim_cv_lt _
    have hdec : 1 ≤ aget g.c i → aget g.c i < 256 →
        (aget g.c i + 255) % 256 = aget g.c i - 1 := by
      intro hl hu
      omega
    unfold eliminate
    rw [if_pos hbit]
    dsimp only
    split
    · rename_i h0
      refine ⟨aget_aset_self _ _ _ hpv, aget_aset_self _ _ _ hcv, fun hl hu => ?_, ?_, ?_⟩
      · rw [aget_aset_self _ _ _ hcv]
        exact hdec hl hu
      · simp [h0]
      · simp only [h0]
        constructor
        · intro hq
          exfalso
          have := congrArg List.length hq
          simp at this
        · omega
    · split
      · rename_i h0 h1q
        refine ⟨aget_aset_self _ _ _ hpv, aget_aset_self _ _ _ hcv, fun hl hu => ?_, ?_, ?_⟩
        · rw [aget_aset_self _ _ _ hcv]
          exact hdec hl hu
        · simp [h0]
        · simp [h1q]
      · rename_i h0 h1q
        refine ⟨aget_aset_self _ _ _ hpv, aget_aset_self _ _ _ hcv, fun hl hu => ?_, ?_, ?_⟩
        · rw [aget_aset_self _ _ _ hcv]
          exact hdec hl hu
        · simp [h0]
        · simp only [h1q, iff_false]
          intro hq
          have := congrArg List.length hq
          simp at this

/-- Claim C4 witness: a concrete elimination on the freshly reset grid. -/
theorem eliminate_spec_witness :
    (1 ≤ 5 ∧ 5 ≤ 9) ∧
    (((aget (reset 0).p 3 >>> (5 - 1)) &&& 1 ≠ 1 → eliminate (reset 0) 3 5 = (reset 0, .ok ())) ∧
    ((aget (reset 0).p 3 >>> (5 - 1)) &&& 1 = 1 →
      aget (eliminate (reset 0) 3 5).1.p 3 = aget (reset 0).p 3 ^^^ (1 <<< (5 - 1)) ∧
      aget (eliminate (reset 0) 3 5).1.c 3 = (aget (reset 0).c 3 + 255) % 256 ∧
      (1 ≤ aget (reset 0).c 3 → aget (reset 0).c 3 < 256 →
        aget (eliminate (reset 0) 3 5).1.c 3 = aget (reset 0).c 3 - 1) ∧
      ((eliminate (reset 0) 3 5).2 = .error .contradiction ↔ (aget (reset 0).c 3 + 255) % 256 = 0) ∧
      ((eliminate (reset 0) 3 5).1.q = (reset 0).q ++ [3] ↔ (aget (reset 0).c 3 + 255) % 256 = 1))) :=
  ⟨⟨by decide, by decide⟩, eliminate_spec (reset 0) 3 5 (by decide) (by decide)⟩

/-- Claim C3 (amended): for every grid state, cell `i` and digit `n` in
1..9, `mark` is a no-op returning success when `value[i] == n` already; it
fails immediately with the contradiction, leaving the grid unchanged, when
`value[i] != n` and bit `n-1` of `candidates[i]` is clear (though it can
also fail later through a cascaded elimination even when that bit is set);
and whenever it fails after passing the direct check, the state mutations
made before the failure are retained — in particular the assignment
`value[i] = n` is still in place, the grid is not rolled back. -/
theorem mark_spec (fuel : Nat) (g : Grid) (i n : Nat) (h1 : 1 ≤ n) (h9 : n ≤ 9) :
    (aget g.v i = n → mrun (fuel + 1) (.mark g i n) = some (g, .ok ())) ∧
    (aget g.v i ≠ n → (aget g.p i >>> (n - 1)) &&& 1 ≠ 1 →
      mrun (fuel + 1) (.mark g i n) = some (g, .error .contradiction)) ∧
    (∀ g2 e, aget g.v i ≠ n → (aget g.p i >>> (n - 1)) &&& 1 = 1 →
      mrun (fuel + 1) (.mark g i n) = some (g2, .error e) → aget g2.v i = n) := by
  refine ⟨fun hv => ?_, fun hv hbit => ?_, fun g2 e hv hbit h => ?_⟩
  · rw [mrun.eq_def]
    dsimp only
    rw [if_pos hv]
  · rw [mrun.eq_def]
    dsimp only
    rw [if_neg hv, if_neg hbit]
  · rw [mrun.eq_def] at h
    dsimp only at h
    rw [if_neg hv, if_pos hbit] at h
    have hn16 : n < 65536 := by omega
    have hvi : aget (aset g.v i n) i = n := aget_aset_self _ _ _ hn16
    have hpi : aget (aset g.p i 0) i = 0 := aget_aset_self _ _ _ (by norm_num)
    split at h
    · exact Option.noConfusion h
    · rename_i g2e e2 heq
      simp only [Option.some.injEq, Prod.mk.injEq] at h
      obtain ⟨rfl, -⟩ := h
      obtain ⟨-, -, -, hfr⟩ := mrun_pure _ _ _ _ heq
      dsimp only [MCmd.grid] at hfr
      obtain ⟨-, hkeep⟩ := hfr i hpi
      rw [hkeep, hvi]
    · rename_i g2e u heq
      obtain ⟨-, -, -, hfr1⟩ := mrun_pure _ _ _ _ heq
      dsimp only [MCmd.grid] at hfr1
      obtain ⟨hp1, hkeep1⟩ := hfr1 i hpi
      obtain ⟨-, -, -, hfr2⟩ := mrun_pure _ _ _ _ h
      dsimp only [MCmd.grid] at hfr2
      obtain ⟨-, hkeep2⟩ := hfr2 i hp1
      rw [hkeep2, hkeep1, hvi]

/-- Claim C3 counterexample grid: an otherwise fresh grid whose cell 1 (a
row peer of cell 0) has the single candidate 5. -/
def gC3 : Grid :=
  { o := 0, v := 0, p := aset allOpen 1 16, c := aset allNine 1 1, q := [], qo := 0, n := 0 }

/-- Claim C3 counterexample: marking digit 5 at cell 0 of `gC3` fails with
the contradiction even though bit 4 of `candidates[0]` is set and
`value[0] != 5` — refuting "fails with ContradictionError exactly when
value[i] != n and bit (n-1) of candidates[i] is clear". -/
theorem mark_exactly_when_cex :
    (mrun 50 (.mark gC3 0 5)).map (fun x => x.2) = some (.error .contradiction) ∧
    (aget gC3.p 0 >>> (5 - 1)) &&& 1 = 1 ∧ aget gC3.v 0 ≠ 5 :=
  ⟨rfl, rfl, by decide⟩

/-- Claim C3 witness: the three amended conjuncts at a concrete state, the
no-op case exercised on a grid with `value[0] = 5` already in place. -/
theorem mark_spec_witness :
    (1 ≤ 5 ∧ 5 ≤ 9) ∧
    ((aget gC3.v 0 = 5 → mrun 50 (.mark gC3 0 5) = some (gC3, .ok ())) ∧
    (aget gC3.v 0 ≠ 5 → (aget gC3.p 0 >>> (5 - 1)) &&& 1 ≠ 1 →
      mrun 50 (.mark gC3 0 5) = some (gC3, .error .contradiction)) ∧
    (∀ g2 e, aget gC3.v 0 ≠ 5 → (aget gC3.p 0 >>> (5 - 1)) &&& 1 = 1 →
      mrun 50 (.mark gC3 0 5) = some (g2, .error e) → aget g2.v 0 = 5)) :=
  ⟨⟨by decide, by decide⟩, mark_spec 49 gC3 0 5 (by decide) (by decide)⟩

/-- The freshly reset grid is well-formed, whatever the clue array. -/
theorem reset_wfbase (o : Nat) : WFbase (reset o) := by
  rw [wfbase_iff]
  show (∀ i < 81, aget allOpen i < 512) ∧
    (∀ i < 81, aget allNine i = popCount16 (aget allOpen i)) ∧
    (∀ i < 81, aget (0 : Nat) i ≠ 0 → aget allOpen i = 0) ∧
    (∀ i < 81, aget (0 : Nat) i ≤ 9) ∧
    (0 : Nat) = countAssigned (reset o) ∧
    (∀ e ∈ ([] : List Nat), e < 81)
  have hc : countAssigned (reset o) = 0 := by
    unfold countAssigned
    simp only [show (reset o).v = 0 from rfl]
    decide
  rw [hc]
  decide

/-- Grid states reachable from `reset` by any sequence of `mark` and
`eliminate` operations on cells in range with digits 1..9, whether they
succeed or fail. -/
inductive Reachable (o : Nat) : Grid → Prop
  | base : Reachable o (reset o)
  | markStep (g g2 : Grid) (fuel i n : Nat) (r : Except SErr Unit) :
      Reachable o g → i < 81 → 1 ≤ n → n ≤ 9 →
      mrun fuel (.mark g i n) = some (g2, r) → Reachable o g2
  | elimStep (g : Grid) (i n : Nat) :
      Reachable o g → i < 81 → 1 ≤ n → n ≤ 9 → Reachable o (eliminate g i n).1

/-- Every reachable state is well-formed. -/
theorem reachable_wfbase (o : Nat) (g : Grid) (h : Reachable o g) : WFbase g := by
  induction h with
  | base => exact reset_wfbase o
  | markStep g g2 fuel i n r _ hi hn1 hn9 hrun ih =>
    exact mrun_wfbase fuel _ _ _ (by exact ⟨ih, hi, hn1, hn9⟩) hrun
  | elimStep g i n _ hi _ _ ih => exact eliminate_wfbase g i n hi ih

/-- Claim C8: for every grid state reachable from `reset` by any sequence
of `mark` and `eliminate` operations (including failed ones),
`candidateCount[i] = popcount(candidates[i])` holds for every cell `i`, and
in particular `candidates[i] = 0` and `candidateCount[i] = 0` for every
assigned cell. -/
theorem reachable_count_popcount (o : Nat) (g : Grid) (h : Reachable o g) :
    ∀ i < 81, aget g.c i = popCount16 (aget g.p i) ∧
      (aget g.v i ≠ 0 → aget g.p i = 0 ∧ aget g.c i = 0) := by
  have hwf := reachable_wfbase o g h
  intro i hi
  refine ⟨hwf.cSync i hi, fun hv => ?_⟩
  have hp0 := hwf.assignedP i hi hv
  refine ⟨hp0, ?_⟩
  rw [hwf.cSync i hi, hp0]
  rfl

/-- Claim C8 witness: the invariant instantiated at the freshly reset
grid. -/
theorem reachable_count_popcount_witness :
    Reachable 7 (reset 7) ∧
    (∀ i < 81, aget (reset 7).c i = popCount16 (aget (reset 7).p i) ∧
      (aget (reset 7).v i ≠ 0 → aget (reset 7).p i = 0 ∧ aget (reset 7).c i = 0)) :=
  ⟨Reachable.base, reachable_count_popcount 7 (reset 7) Reachable.base⟩

/-- Claim C6: `resolve` surfaces the contradiction to its caller exactly
when marking the original clue set itself fails with it; whenever the
clue-marking phase succeeds, `resolve` returns a (possibly empty) list of
solutions rather than failing — contradictions inside search branches are
swallowed by the branch loop (`rrun` continues with the next digit). -/
theorem resolve_contradiction_iff (fuel o : Nat) (r : Except SErr (List Nat))
    (h : resolveF fuel o = some r) :
    (r = .error .contradiction ↔
      (markPhase fuel o).map (fun x => x.2) = some (.error .contradiction)) ∧
    ((markPhase fuel o).map (fun x => x.2) = some (.ok ()) → ∃ l, r = .ok l) := by
  unfold resolveF at h
  split at h
  · exact Option.noConfusion h
  · rename_i g e heq
    simp only [Option.some.injEq] at h
    subst h
    rw [heq]
    cases e <;> simp
  · rename_i g u heq
    rw [heq]
    rcases hr : rrun fuel (.solve g) with _ | l
    · rw [hr] at h
      exact Option.noConfusion h
    · rw [hr] at h
      simp only [Option.map, Option.some.injEq] at h
      subst h
      exact ⟨by simp, fun _ => ⟨l, rfl⟩⟩

/-- Contradictory clue set for the C6 witness: digit 5 at both cell 0 and
its row peer cell 1. -/
def oBad : Nat := packList ([5, 5] ++ List.replicate 79 0)

/-- Claim C6 witness: on `oBad` the clue-marking phase itself hits the
contradiction and `resolve` surfaces exactly it. -/
theorem resolve_contradiction_iff_witness :
    resolveF 64 oBad = some (.error .contradiction) ∧
    ((Except.error .contradiction = (.error .contradiction : Except SErr (List Nat)) ↔
      (markPhase 64 oBad).map (fun x => x.2) = some (.error .contradiction)) ∧
    ((markPhase 64 oBad).map (fun x => x.2) = some (.ok ()) →
      ∃ l, (Except.error .contradiction : Except SErr (List Nat)) = .ok l)) :=
  ⟨rfl, resolve_contradiction_iff 64 oBad (.error .contradiction) rfl⟩

/-- The unread (pending) part of the forced queue. -/
def pendingQ (g : Grid) : List Nat := g.q.drop g.qo

/-- Queue discipline of a well-formed state: the read cursor within bounds,
every pending entry a cell whose candidate count is exactly 1, and no cell
pending twice. -/
structure WFq (g : Grid) : Prop where
  qoLe : g.qo ≤ g.q.length
  pendC : ∀ e ∈ pendingQ g, aget g.c e = 1
  pendND : (pendingQ g).Nodup

theorem wfq_iff (g : Grid) : WFq g ↔
    (g.qo ≤ g.q.length ∧ (∀ e ∈ pendingQ g, aget g.c e = 1) ∧ (pendingQ g).Nodup) :=
  ⟨fun h => ⟨h.qoLe, h.pendC, h.pendND⟩, fun h => ⟨h.1, h.2.1, h.2.2⟩⟩

instance (g : Grid) : Decidable (WFq g) :=
  decidable_of_iff _ (wfq_iff g).symm

/-- `eliminate` keeps the queue discipline whenever it succeeds. -/
theorem eliminate_wfq (g : Grid) (i n : Nat) (hi : i < 81)
    (hwfb : WFbase g) (hwfq : WFq g) :
    (eliminate g i n).2 = .ok () → WFq (eliminate g i n).1 := by
  intro hok
  unfold eliminate at hok ⊢
  split
  · rename_i hbit
    rw [if_pos hbit] at hok
    dsimp only at hok ⊢
    have hcvlt : (aget g.c i + 255) % 256 < 65536 := elim_cv_lt _
    have hc9 : aget g.c i ≤ 9 := by
      rw [hwfb.cSync i hi]
      exact popCount16_le9 _ (hwfb.pLt i hi)
    split
    · rename_i hcv0
      rw [if_pos hcv0] at hok
      exact absurd hok (by simp)
    · rename_i hcv0
      rw [if_neg hcv0] at hok
      split
      · -- count reached 1: the cell is enqueued
        rename_i hcv1
        have hcI : aget g.c i = 2 := by omega
        have hnotpend : i ∉ pendingQ g := fun hmem => by
          have := hwfq.pendC i hmem
          omega
        refine ⟨?_, ?_, ?_⟩
        · show g.qo ≤ (g.q ++ [i]).length
          rw [List.length_append]
          have := hwfq.qoLe
          simp only [List.length_singleton]
          omega
        · show ∀ e ∈ (g.q ++ [i]).drop g.qo, _
          rw [List.drop_append_of_le_length hwfq.qoLe]
          intro e he
          rcases List.mem_append.mp he with he | he
          · have hne : e ≠ i := fun h => hnotpend (h ▸ he)
            rw [aget_aset_ne _ _ hcvlt hne]
            exact hwfq.pendC e he
          · rw [List.mem_singleton.mp he, aget_aset_self _ _ _ hcvlt]
            omega
        · show ((g.q ++ [i]).drop g.qo).Nodup
          rw [List.drop_append_of_le_length hwfq.qoLe, List.nodup_append]
          refine ⟨hwfq.pendND, List.nodup_singleton i, ?_⟩
          intro a ha hb
          rw [List.mem_singleton.mp hb] at ha
          exact hnotpend ha
      · -- count at least 2 remains
        rename_i hcv1
        have hnotpend : i ∉ pendingQ g := fun hmem => by
          have := hwfq.pendC i hmem
          omega
        refine ⟨hwfq.qoLe, ?_, hwfq.pendND⟩
        intro e he
        have hne : e ≠ i := fun h => hnotpend (h ▸ he)
        rw [aget_aset_ne _ _ hcvlt hne]
        exact hwfq.pendC e he
  · exact hwfq

/-- `eliminate` never reports the drain-loop marker error. -/
theorem eliminate_no_qb (g : Grid) (i n : Nat) :
    (eliminate g i n).2 ≠ .error .queueBroken := by
  unfold eliminate
  split
  · dsimp only
    split
    · simp
    · split <;> simp
  · simp

/-- With the cursor on a real entry, the pending queue is that entry
followed by the remaining drop. -/
theorem pend_cons (g : Grid) (hlt : g.qo < g.q.length) :
    pendingQ g = g.q.getD g.qo 0 :: g.q.drop (g.qo + 1) := by
  show g.q.drop g.qo = _
  rw [List.drop_eq_getElem_cons hlt]
  congr 1
  rw [List.getD_eq_getElem?_getD, List.getElem?_eq_getElem hlt, Option.getD_some]

/-- Queue-discipline precondition of a propagation command; a `mark` target
must not itself be pending (it never is: top-level marks run on a drained
queue, drain-loop marks pop their cell first). -/
def BPre : MCmd → Prop
  | .mark g i n => WFbase g ∧ WFq g ∧ i ∉ pendingQ g ∧ i < 81 ∧ 1 ≤ n ∧ n ≤ 9
  | .elims g ps n => WFbase g ∧ WFq g ∧ (∀ j ∈ ps, j < 81) ∧ 1 ≤ n ∧ n ≤ 9
  | .drain g => WFbase g ∧ WFq g

/-- What a successful run leaves pending: a completed `mark` either drained
the whole queue or was a no-op, a completed drain always drained it. -/
def PendPost : MCmd → Grid → Prop
  | .mark g _ _, g2 => pendingQ g2 = [] ∨ g2 = g
  | .elims _ _ _, _ => True
  | .drain _, g2 => pendingQ g2 = []

/-- Claim C5 core induction: from a state with queue discipline, a
propagation run never stops with the `queueBroken` marker (every popped
cell has exactly one candidate at the moment it is popped), and a
successful run preserves the discipline and leaves the queue drained. -/
theorem mrun_wfq (fuel : Nat) : ∀ cmd g2 r,
    BPre cmd → mrun fuel cmd = some (g2, r) →
    r ≠ .error .queueBroken ∧ (r = .ok () → WFq g2 ∧ PendPost cmd g2) := by
  induction fuel with
  | zero => intro cmd g2 r _ h; simp [mrun] at h
  | succ f ih =>
    intro cmd g2 r hpre h
    match cmd with
    | .mark g i n =>
      obtain ⟨hwfb, hwfq, hnp, hi, hn1, hn9⟩ := hpre
      rw [mrun.eq_def] at h
      dsimp only at h
      split at h
      · simp only [Option.some.injEq, Prod.mk.injEq] at h
        obtain ⟨rfl, rfl⟩ := h
        exact ⟨by simp, fun _ => ⟨hwfq, Or.inr rfl⟩⟩
      · split at h
        · rename_i hne hbit
          have hwfb1 : WFbase (assignGrid g i n) := assign_wfbase g i n hi hn1 hn9 hbit hwfb
          have hwfq1 : WFq (assignGrid g i n) := by
            refine ⟨hwfq.qoLe, ?_, hwfq.pendND⟩
            intro e he
            have hne2 : e ≠ i := fun hh => hnp (hh ▸ he)
            show aget (aset g.c i 0) e = 1
            rw [aget_aset_ne _ _ (by norm_num) hne2]
            exact hwfq.pendC e he
          have hpre1 : BPre (.elims (assignGrid g i n) (peers i) n) :=
            ⟨hwfb1, hwfq1, peers_lt i, hn1, hn9⟩
          split at h
          · exact Option.noConfusion h
          · rename_i g2e e heq
            simp only [Option.some.injEq, Prod.mk.injEq] at h
            obtain ⟨rfl, rfl⟩ := h
            obtain ⟨hqb, -⟩ := ih _ _ _ (by exact hpre1) heq
            exact ⟨hqb, by simp⟩
          · rename_i g2e u heq
            obtain ⟨-, hok⟩ := ih _ _ _ (by exact hpre1) heq
            obtain ⟨hwfq2, -⟩ := hok rfl
            have hwfb2 : WFbase g2e :=
              mrun_wfbase f _ _ _ (by exact ⟨hwfb1, peers_lt i, hn1, hn9⟩) heq
            obtain ⟨hqb3, hok3⟩ := ih (.drain g2e) _ _ ⟨hwfb2, hwfq2⟩ h
            refine ⟨hqb3, fun hr => ?_⟩
            obtain ⟨hwfq3, hpend3⟩ := hok3 hr
            exact ⟨hwfq3, Or.inl hpend3⟩
        · simp only [Option.some.injEq, Prod.mk.injEq] at h
          obtain ⟨rfl, rfl⟩ := h
          exact ⟨by simp, by simp⟩
    | .elims g ps n =>
      obtain ⟨hwfb, hwfq, hps, hn1, hn9⟩ := hpre
      rw [mrun.eq_def] at h
      dsimp only at h
      split at h
      · simp only [Option.some.injEq, Prod.mk.injEq] at h
        obtain ⟨rfl, rfl⟩ := h
        exact ⟨by simp, fun _ => ⟨hwfq, trivial⟩⟩
      · rename_i j rest
        have hj : j < 81 := hps j (List.mem_cons_self _ _)
        split at h
        · rename_i g1 u heq
          have hwfb1 : WFbase (eliminate g j n).1 := eliminate_wfbase g j n hj hwfb
          have hwfq1 : WFq (eliminate g j n).1 :=
            eliminate_wfq g j n hj hwfb hwfq (by rw [heq])
          rw [heq] at hwfb1 hwfq1
          dsimp only at hwfb1 hwfq1
          exact ih (.elims g1 rest n) g2 r
            ⟨hwfb1, hwfq1, fun x hx => hps x (List.mem_cons_of_mem _ hx), hn1, hn9⟩ h
        · rename_i g1 e heq
          simp only [Option.some.injEq, Prod.mk.injEq] at h
          obtain ⟨rfl, rfl⟩ := h
          have hqb : Except.error (α := Unit) e ≠ .error SErr.queueBroken := by
            have := eliminate_no_qb g j n
            rw [heq] at this
            exact this
          exact ⟨hqb, by simp⟩
    | .drain g =>
      obtain ⟨hwfb, hwfq⟩ := hpre
      rw [mrun.eq_def] at h
      dsimp only at h
      split at h
      · rename_i hlt
        have hpc : pendingQ g = g.q.getD g.qo 0 :: g.q.drop (g.qo + 1) := pend_cons g hlt
        have hiq : g.q.getD g.qo 0 ∈ g.q := getD_mem_of_lt hlt 0
        have hi81 : g.q.getD g.qo 0 < 81 := hwfb.qLt _ hiq
        have hc1 : aget g.c (g.q.getD g.qo 0) = 1 :=
          hwfq.pendC _ (by rw [hpc]; exact List.mem_cons_self _ _)
        have hpop1 : popCount16 (aget g.p (g.q.getD g.qo 0)) = 1 := by
          rw [← hwfb.cSync _ hi81]
          exact hc1
        have hwfq1 : WFq { g with qo := g.qo + 1 } := by
          refine ⟨hlt, ?_, ?_⟩
          · intro e he
            apply hwfq.pendC
            rw [hpc]
            exact List.mem_cons_of_mem _ he
          · have := hwfq.pendND
            rw [hpc] at this
            exact (List.nodup_cons.mp this).2
        have hwfb1 : WFbase { g with qo := g.qo + 1 } :=
          ⟨hwfb.pLt, hwfb.cSync, hwfb.assignedP, hwfb.vLe, hwfb.nCount, hwfb.qLt⟩
        have hnp1 : g.q.getD g.qo 0 ∉ pendingQ { g with qo := g.qo + 1 } := by
          show g.q.getD g.qo 0 ∉ g.q.drop (g.qo + 1)
          have := hwfq.pendND
          rw [hpc] at this
          exact (List.nodup_cons.mp this).1
        split at h
        · rename_i hpcc
          obtain ⟨hf1, hf9, -⟩ := ffs_singleton _ (hwfb.pLt _ hi81) hpop1
          split at h
          · exact Option.noConfusion h
          · rename_i g2m u heq
            obtain ⟨-, hokm⟩ := ih _ _ _
              (by exact ⟨hwfb1, hwfq1, hnp1, hi81, hf1, hf9⟩) heq
            obtain ⟨hwfq2, -⟩ := hokm rfl
            have hwfb2 : WFbase g2m :=
              mrun_wfbase f _ _ _ (by exact ⟨hwfb1, hi81, hf1, hf9⟩) heq
            exact ih (.drain g2m) g2 r ⟨hwfb2, hwfq2⟩ h
          · rename_i g2m e heq
            simp only [Option.some.injEq, Prod.mk.injEq] at h
            obtain ⟨rfl, rfl⟩ := h
            obtain ⟨hqb, -⟩ := ih _ _ _
              (by exact ⟨hwfb1, hwfq1, hnp1, hi81, hf1, hf9⟩) heq
            exact ⟨hqb, by simp⟩
        · rename_i hpcc
          exact absurd hpop1 hpcc
      · rename_i hge
        simp only [Option.some.injEq, Prod.mk.injEq] at h
        obtain ⟨rfl, rfl⟩ := h
        refine ⟨by simp, fun _ => ⟨hwfq, ?_⟩⟩
        show g.q.drop g.qo = []
        exact List.drop_eq_nil_of_le (Nat.le_of_not_lt hge)

/-- Claim C5: in every execution of `mark` from a well-formed state with
queue discipline (the target cell not pending, as holds at every call site),
each cell popped from the forced queue has exactly one candidate bit at the
moment it is popped, so `ffs` yields a digit 1..9 and the recursive `mark`
is well-defined: the drain loop's error branch for an empty (or multiple)
mask — `SErr.queueBroken` in this embedding — is unreachable. -/
theorem drain_queueBroken_unreachable (fuel : Nat) (g : Grid) (i n : Nat)
    (hwfb : WFbase g) (hwfq : WFq g) (hnp : i ∉ pendingQ g)
    (hi : i < 81) (hn1 : 1 ≤ n) (hn9 : n ≤ 9) :
    ∀ x ∈ mrun fuel (.mark g i n), x.2 ≠ .error .queueBroken := by
  intro x hx
  rw [Option.mem_def] at hx
  obtain ⟨g2, r⟩ := x
  exact (mrun_wfq fuel (.mark g i n) g2 r ⟨hwfb, hwfq, hnp, hi, hn1, hn9⟩ hx).1

/-- Claim C5 witness: the drain discipline instantiated on a mark of the
freshly reset grid. -/
theorem drain_queueBroken_unreachable_witness :
    (WFbase (reset 0) ∧ WFq (reset 0) ∧ (0 : Nat) ∉ pendingQ (reset 0) ∧
      0 < 81 ∧ 1 ≤ 5 ∧ 5 ≤ 9) ∧
    (∀ x ∈ mrun 50 (.mark (reset 0) 0 5), x.2 ≠ .error .queueBroken) :=
  ⟨⟨by decide, by decide, by decide, by decide, by decide, by decide⟩,
   drain_queueBroken_unreachable 50 (reset 0) 0 5 (by decide) (by decide)
     (by decide) (by decide) (by decide) (by decide)⟩

/-- Peer discipline of a well-formed state: the digit of an assigned cell
has been eliminated from all its peers' candidate masks, and no two
assigned peers hold the same digit. -/
structure WFpeer (g : Grid) : Prop where
  cand : ∀ i < 81, aget g.v i ≠ 0 → ∀ j ∈ peers i,
    (aget g.p j >>> (aget g.v i - 1)) &&& 1 = 0
  dist : ∀ i < 81, aget g.v i ≠ 0 → ∀ j ∈ peers i,
    aget g.v j ≠ 0 → aget g.v i ≠ aget g.v j

theorem wfpeer_iff (g : Grid) : WFpeer g ↔
    ((∀ i < 81, aget g.v i ≠ 0 → ∀ j ∈ peers i,
      (aget g.p j >>> (aget g.v i - 1)) &&& 1 = 0) ∧
     (∀ i < 81, aget g.v i ≠ 0 → ∀ j ∈ peers i,
      aget g.v j ≠ 0 → aget g.v i ≠ aget g.v j)) :=
  ⟨fun h => ⟨h.cand, h.dist⟩, fun h => ⟨h.1, h.2⟩⟩

instance (g : Grid) : Decidable (WFpeer g) :=
  decidable_of_iff _ (wfpeer_iff g).symm

/-- `eliminate` does not touch values. -/
theorem eliminate_v_eq (g : Grid) (j n : Nat) : (eliminate g j n).1.v = g.v := by
  unfold eliminate
  split
  · dsimp only
    split
    · rfl
    · split <;> rfl
  · rfl

/-- `eliminate` does not touch the fill counter. -/
theorem eliminate_n_eq (g : Grid) (j n : Nat) : (eliminate g j n).1.n = g.n := by
  unfold eliminate
  split
  · dsimp only
    split
    · rfl
    · split <;> rfl
  · rfl

/-- `eliminate` never sets a candidate bit that was clear. -/
theorem eliminate_bit_zero_preserved (g : Grid) (j n : Nat) (k d : Nat)
    (h0 : (aget g.p k >>> d) &&& 1 = 0) :
    (aget (eliminate g j n).1.p k >>> d) &&& 1 = 0 := by
  unfold eliminate
  split
  · rename_i hbit
    have hpv : aget g.p j ^^^ 1 <<< (n - 1) < 65536 :=
      elim_pv_lt (aget g.p j) n (aget_lt g.p j) hbit
    have hcore : (aget (aset g.p j (aget g.p j ^^^ 1 <<< (n - 1))) k >>> d) &&& 1 = 0 := by
      rcases eq_or_ne k j with rfl | hne
      · rw [aget_aset_self _ _ _ hpv]
        rcases eq_or_ne d (n - 1) with rfl | hd
        · exact xor_bit_self _ _ hbit
        · rw [xor_bit_other _ _ _ hd]
          exact h0
      · rw [aget_aset_ne _ _ hpv hne]
        exact h0
    dsimp only
    split
    · exact hcore
    · split <;> exact hcore
  · exact h0

/-- After a successful `eliminate`, bit `n-1` of the target's mask is
clear. -/
theorem eliminate_ok_bit_cleared (g : Grid) (j n : Nat) :
    (eliminate g j n).2 = .ok () →
    (aget (eliminate g j n).1.p j >>> (n - 1)) &&& 1 = 0 := by
  intro hok
  unfold eliminate at hok ⊢
  split
  · rename_i hbit
    have hpv : aget g.p j ^^^ 1 <<< (n - 1) < 65536 :=
      elim_pv_lt (aget g.p j) n (aget_lt g.p j) hbit
    have hcore : (aget (aset g.p j (aget g.p j ^^^ 1 <<< (n - 1))) j >>> (n - 1)) &&& 1 = 0 := by
      rw [aget_aset_self _ _ _ hpv]
      exact xor_bit_self _ _ hbit
    dsimp only
    split
    · exact hcore
    · split <;> exact hcore
  · rename_i hbit
    dsimp only
    have := Nat.and_one_is_mod (aget g.p j >>> (n - 1))
    omega

/-- The exception set of a running elimination loop: every assigned cell's
digit is already cleared from each peer's mask, except possibly for the
marked digit at peers still to be processed. -/
def ElimsExc (g : Grid) (ps : List Nat) (n : Nat) : Prop :=
  ∀ a < 81, aget g.v a ≠ 0 → ∀ k ∈ peers a,
    (aget g.p k >>> (aget g.v a - 1)) &&& 1 = 0 ∨ (aget g.v a = n ∧ k ∈ ps)

/-- Assigned peers hold distinct digits. -/
def DistOK (g : Grid) : Prop :=
  ∀ a < 81, aget g.v a ≠ 0 → ∀ k ∈ peers a, aget g.v k ≠ 0 → aget g.v a ≠ aget g.v k

/-- Peer-discipline precondition of a propagation command. -/
def CPre : MCmd → Prop
  | .mark g i n => WFbase g ∧ WFpeer g ∧ i < 81 ∧ 1 ≤ n ∧ n ≤ 9
  | .elims g ps n =>
    WFbase g ∧ DistOK g ∧ ElimsExc g ps n ∧ (∀ j ∈ ps, j < 81) ∧ 1 ≤ n ∧ n ≤ 9
  | .drain g => WFbase g ∧ WFpeer g

/-- After the assignment half of `mark`, assigned peers are distinct and the
elimination loop over the peers is about to restore the candidate
discipline. -/
theorem assign_dist_exc (g : Grid) (i n : Nat) (hi : i < 81) (hn1 : 1 ≤ n) (hn9 : n ≤ 9)
    (hbit : (aget g.p i >>> (n - 1)) &&& 1 = 1) (hwfb : WFbase g) (hwfp : WFpeer g) :
    DistOK (assignGrid g i n) ∧ ElimsExc (assignGrid g i n) (peers i) n := by
  have hn16 : n < 65536 := by omega
  have hgv : (assignGrid g i n).v = aset g.v i n := rfl
  have hgp : (assignGrid g i n).p = aset g.p i 0 := rfl
  constructor
  · intro a ha hva k hk hvk
    rw [hgv] at hva hvk ⊢
    have hka : k ≠ a := (peers_mem_iff a k).mp hk |>.2.1
    have hk81 : k < 81 := peers_lt a k hk
    rcases eq_or_ne a i with rfl | hai
    · -- the freshly assigned cell against an already assigned peer
      rw [aget_aset_self _ _ _ hn16]
      rw [aget_aset_ne _ _ hn16 hka] at hvk ⊢
      have hik : a ∈ peers k := peers_symm a k ha hk
      have hcand := hwfp.cand k hk81 hvk a hik
      intro heq
      rw [← heq] at hcand
      rw [hcand] at hbit
      exact absurd hbit (by norm_num)
    · rw [aget_aset_ne _ _ hn16 hai] at hva ⊢
      rcases eq_or_ne k i with rfl | hki
      · rw [aget_aset_self _ _ _ hn16]
        have hcand := hwfp.cand a ha hva k hk
        intro heq
        rw [heq] at hcand
        rw [hcand] at hbit
        exact absurd hbit (by norm_num)
      · rw [aget_aset_ne _ _ hn16 hki] at hvk ⊢
        exact hwfp.dist a ha hva k hk hvk
  · intro a ha hva k hk
    rw [hgv] at hva ⊢
    rw [hgp]
    rcases eq_or_ne a i with rfl | hai
    · right
      rw [aget_aset_self _ _ _ hn16]
      exact ⟨rfl, hk⟩
    · left
      rw [aget_aset_ne _ _ hn16 hai] at hva ⊢
      rcases eq_or_ne k i with rfl | hki
      · rw [aget_aset_self _ _ _ (by norm_num)]
        simp [Nat.zero_shiftRight]
      · rw [aget_aset_ne _ _ (by norm_num) hki]
        exact hwfp.cand a ha hva k hk

/-- Peer discipline is preserved by every successful propagation run. -/
theorem mrun_wfpeer (fuel : Nat) : ∀ cmd g2,
    CPre cmd → mrun fuel cmd = some (g2, .ok ()) → WFpeer g2 := by
  induction fuel with
  | zero => intro cmd g2 _ h; simp [mrun] at h
  | succ f ih =>
    intro cmd g2 hpre h
    match cmd with
    | .mark g i n =>
      obtain ⟨hwfb, hwfp, hi, hn1, hn9⟩ := hpre
      rw [mrun.eq_def] at h
      dsimp only at h
      split at h
      · simp only [Option.some.injEq, Prod.mk.injEq] at h
        obtain ⟨rfl, -⟩ := h
        exact hwfp
      · split at h
        · rename_i hne hbit
          obtain ⟨hdist1, hexc1⟩ := assign_dist_exc g i n hi hn1 hn9 hbit hwfb hwfp
          have hwfb1 : WFbase (assignGrid g i n) := assign_wfbase g i n hi hn1 hn9 hbit hwfb
          split at h
          · exact Option.noConfusion h
          · simp at h
          · rename_i g2e u heq
            have hwfp2 : WFpeer g2e :=
              ih (.elims (assignGrid g i n) (peers i) n) g2e
                ⟨hwfb1, hdist1, hexc1, peers_lt i, hn1, hn9⟩ heq
            have hwfb2 : WFbase g2e :=
              mrun_wfbase f _ _ _ (by exact ⟨hwfb1, peers_lt i, hn1, hn9⟩) heq
            exact ih (.drain g2e) g2 ⟨hwfb2, hwfp2⟩ h
        · simp at h
    | .elims g ps n =>
      obtain ⟨hwfb, hdist, hexc, hps, hn1, hn9⟩ := hpre
      rw [mrun.eq_def] at h
      dsimp only at h
      split at h
      · simp only [Option.some.injEq, Prod.mk.injEq] at h
        obtain ⟨rfl, -⟩ := h
        refine ⟨?_, hdist⟩
        intro a ha hva k hk
        rcases hexc a ha hva k hk with h0 | ⟨-, hmem⟩
        · exact h0
        · cases hmem
      · rename_i j rest
        have hj : j < 81 := hps j (List.mem_cons_self _ _)
        split at h
        · rename_i g1 u heq
          have hveq : (eliminate g j n).1.v = g.v := eliminate_v_eq g j n
          have hclr := eliminate_ok_bit_cleared g j n (by rw [heq])
          have hdist1 : DistOK (eliminate g j n).1 := by
            intro a ha hva k hk hvk
            rw [hveq] at hva hvk ⊢
            exact hdist a ha hva k hk hvk
          have hexc1 : ElimsExc (eliminate g j n).1 rest n := by
            intro a ha hva k hk
            rw [hveq] at hva ⊢
            rcases hexc a ha hva k hk with h0 | ⟨hvn, hmem⟩
            · exact Or.inl (eliminate_bit_zero_preserved g j n k _ h0)
            · rcases List.mem_cons.mp hmem with rfl | hmem2
              · left
                rw [hvn]
                exact hclr
              · exact Or.inr ⟨hvn, hmem2⟩
          have hwfb1 : WFbase (eliminate g j n).1 := eliminate_wfbase g j n hj hwfb
          rw [heq] at hwfb1 hdist1 hexc1
          dsimp only at hwfb1 hdist1 hexc1
          exact ih (.elims g1 rest n) g2
            ⟨hwfb1, hdist1, hexc1, fun x hx => hps x (List.mem_cons_of_mem _ hx), hn1, hn9⟩ h
        · simp at h
    | .drain g =>
      obtain ⟨hwfb, hwfp⟩ := hpre
      rw [mrun.eq_def] at h
      dsimp only at h
      split at h
      · rename_i hlt
        have hiq : g.q.getD g.qo 0 ∈ g.q := getD_mem_of_lt hlt 0
        have hi81 : g.q.getD g.qo 0 < 81 := hwfb.qLt _ hiq
        have hwfb1 : WFbase { g with qo := g.qo + 1 } :=
          ⟨hwfb.pLt, hwfb.cSync, hwfb.assignedP, hwfb.vLe, hwfb.nCount, hwfb.qLt⟩
        have hwfp1 : WFpeer { g with qo := g.qo + 1 } := ⟨hwfp.cand, hwfp.dist⟩
        split at h
        · rename_i hpcc
          obtain ⟨hf1, hf9, -⟩ := ffs_singleton _ (hwfb.pLt _ hi81) hpcc
          split at h
          · exact Option.noConfusion h
          · rename_i g2m u heq
            have hwfp2 := ih _ _ (by exact ⟨hwfb1, hwfp1, hi81, hf1, hf9⟩) heq
            have hwfb2 : WFbase g2m :=
              mrun_wfbase f _ _ _ (by exact ⟨hwfb1, hi81, hf1, hf9⟩) heq
            exact ih (.drain g2m) g2 ⟨hwfb2, hwfp2⟩ h
          · simp at h
        · simp at h
      · simp only [Option.some.injEq, Prod.mk.injEq] at h
        obtain ⟨rfl, -⟩ := h
        exact hwfp

/-- A successful `mark` leaves the target cell holding the marked digit:
either it held it already, or the assignment wrote it and the elimination
cascade cannot touch a cell whose mask is cleared. -/
theorem mark_ok_value (fuel : Nat) (g g2 : Grid) (i n : Nat) (hn9 : n ≤ 9)
    (h : mrun fuel (.mark g i n) = some (g2, .ok ())) : aget g2.v i = n := by
  match fuel with
  | 0 => simp [mrun] at h
  | f + 1 =>
    rw [mrun.eq_def] at h
    dsimp only at h
    split at h
    · rename_i hv
      simp only [Option.some.injEq, Prod.mk.injEq] at h
      obtain ⟨rfl, -⟩ := h
      exact hv
    · split at h
      · rename_i hne hbit
        split at h
        · exact Option.noConfusion h
        · simp at h
        · rename_i g2e u heq
          have hs1 := mrun_pure f _ _ _ heq
          have hs2 := mrun_pure f _ _ _ h
          dsimp only [MCmd.grid] at hs1 hs2
          have hp1 : aget (aset g.p i 0) i = 0 := aget_aset_self _ _ _ (by norm_num)
          obtain ⟨hp2, hv2⟩ := hs1.2.2.2 i hp1
          obtain ⟨-, hv3⟩ := hs2.2.2.2 i hp2
          rw [hv3, hv2]
          exact aget_aset_self _ _ _ (by omega)
      · simp at h

/-- The frame facts hold across a whole clue-marking loop. -/
theorem markAllF_stepOK (fuel : Nat) : ∀ (is : List Nat) (g g2 : Grid)
    (r : Except SErr Unit), markAllF fuel g is = some (g2, r) → StepOK g g2 := by
  intro is
  induction is with
  | nil =>
    intro g g2 r h
    simp only [markAllF, Option.some.injEq, Prod.mk.injEq] at h
    obtain ⟨rfl, -⟩ := h
    exact stepOK_rfl g
  | cons i rest ih =>
    intro g g2 r h
    simp only [markAllF] at h
    split at h
    · split at h
      · exact Option.noConfusion h
      · rename_i g1 u heq
        exact stepOK_trans (by have := mrun_pure fuel _ _ _ heq; exact this) (ih g1 g2 r h)
      · rename_i g1 e heq
        simp only [Option.some.injEq, Prod.mk.injEq] at h
        obtain ⟨rfl, -⟩ := h
        have := mrun_pure fuel _ _ _ heq
        exact this
    · exact ih g g2 r h

/-- The reset state has queue discipline. -/
theorem reset_wfq (o : Nat) : WFq (reset o) :=
  ⟨Nat.le_refl 0, fun e he => absurd he (List.not_mem_nil e), List.nodup_nil⟩

/-- The reset state has no pending queue entries. -/
theorem reset_pend (o : Nat) : pendingQ (reset o) = [] := rfl

/-- The reset state has peer discipline (vacuously: no cell assigned). -/
theorem reset_wfpeer (o : Nat) : WFpeer (reset o) := by
  have h0 : ∀ a : Nat, aget (reset o).v a = 0 := by
    intro a
    show aget 0 a = 0
    simp [aget, Nat.zero_shiftRight]
  exact ⟨fun a _ hva => absurd (h0 a) hva, fun a _ hva => absurd (h0 a) hva⟩

/-- A full fill counter means every cell is assigned. -/
theorem all_assigned_of_count (g : Grid) (hc : countAssigned g = 81) :
    ∀ i < 81, aget g.v i ≠ 0 := by
  intro i hi
  by_contra hvi
  have hlt : (((List.range 81).filter (fun j => decide (aget g.v j ≠ 0)))).length <
      (List.range 81).length := by
    rw [List.length_filter_lt_length_iff_exists]
    exact ⟨i, List.mem_range.mpr hi, by simpa using hvi⟩
  rw [List.length_range] at hlt
  exact absurd hc (by unfold countAssigned at *; omega)

/-- A fill counter below 81 leaves an unassigned cell. -/
theorem exists_unassigned (g : Grid) (hc : countAssigned g ≠ 81) :
    ∃ i, i < 81 ∧ aget g.v i = 0 := by
  by_contra hno
  push_neg at hno
  have hall : ((List.range 81).filter (fun j => decide (aget g.v j ≠ 0))) = List.range 81 := by
    rw [List.filter_eq_self]
    intro a ha
    simpa using hno a (List.mem_range.mp ha)
  apply hc
  unfold countAssigned
  rw [hall, List.length_range]

/-- On a complete well-formed grid, every cell holds a digit 1..9 and no
cell's digit equals a peer's. -/
theorem complete_good (g : Grid) (hwfb : WFbase g) (hwfp : WFpeer g) (hn : g.n = 81) :
    (∀ i < 81, 1 ≤ aget g.v i ∧ aget g.v i ≤ 9) ∧
    (∀ i < 81, ∀ k ∈ peers i, aget g.v i ≠ aget g.v k) := by
  have hall := all_assigned_of_count g (by rw [← hwfb.nCount]; exact hn)
  constructor
  · intro i hi
    have h1 := hall i hi
    have h2 := hwfb.vLe i hi
    omega
  · intro i hi k hk
    exact hwfp.dist i hi (hall i hi) k hk (hall k (peers_lt i k hk))

/-- An update of the running minimum in `searchMin` only ever stores list
elements; once the stored count drops below 10 it stays there. -/
theorem foldl_min_lt (g : Grid) : ∀ (l : List Nat), (∀ j ∈ l, j < 81) →
    ∀ ac : Nat × Nat, (ac.2 < 10 → ac.1 < 81) →
    ((∃ i ∈ l, aget g.v i = 0 ∧ aget g.c i < 10) ∨ ac.2 < 10) →
    (l.foldl (fun ac i =>
        if aget g.v i = 0 ∧ aget g.c i < ac.2 then (i, aget g.c i) else ac) ac).2 < 10 ∧
    (l.foldl (fun ac i =>
        if aget g.v i = 0 ∧ aget g.c i < ac.2 then (i, aget g.c i) else ac) ac).1 < 81 := by
  intro l
  induction l with
  | nil =>
    intro hl ac hinv hdisj
    rcases hdisj with ⟨i, hi, -⟩ | h2
    · cases hi
    · exact ⟨h2, hinv h2⟩
  | cons j t ih =>
    intro hl ac hinv hdisj
    rw [List.foldl_cons]
    by_cases hc : aget g.v j = 0 ∧ aget g.c j < ac.2
    · rw [if_pos hc]
      apply ih (fun x hx => hl x (List.mem_cons_of_mem _ hx))
      · intro _
        exact hl j (List.mem_cons_self _ _)
      · rcases hdisj with ⟨i, hi, hvi, hci⟩ | h2
        · rcases List.mem_cons.mp hi with rfl | hit
          · exact Or.inr hci
          · exact Or.inl ⟨i, hit, hvi, hci⟩
        · exact Or.inr (by dsimp only; omega)
    · rw [if_neg hc]
      apply ih (fun x hx => hl x (List.mem_cons_of_mem _ hx)) ac hinv
      rcases hdisj with ⟨i, hi, hvi, hci⟩ | h2
      · rcases List.mem_cons.mp hi with rfl | hit
        · right
          rcases not_and_or.mp hc with h | h
          · exact absurd hvi h
          · omega
        · exact Or.inl ⟨i, hit, hvi, hci⟩
      · exact Or.inr h2

/-- On an incomplete well-formed grid, `searchMin` returns a real cell (the
`im` sentinel 255 is overwritten by the first unassigned cell, whose count is
at most 9). -/
theorem searchMin_lt (g : Grid) (hwfb : WFbase g) (hn : g.n ≠ 81) : searchMin g < 81 := by
  obtain ⟨i, hi, hvi⟩ := exists_unassigned g (by rw [← hwfb.nCount]; exact hn)
  have hci : aget g.c i < 10 := by
    rw [hwfb.cSync i hi]
    have := popCount16_le9 _ (hwfb.pLt i hi)
    omega
  exact (foldl_min_lt g (List.range 81) (fun j hj => List.mem_range.mp hj)
    (255, 10) (by intro h; omega)
    (Or.inl ⟨i, List.mem_range.mpr hi, hvi, hci⟩)).2

/-- A good solution relative to a grid: every cell holds a digit 1..9, no
cell's digit equals a peer's, and every cell that the grid already assigns
keeps its value. -/
def GoodFrom (g : Grid) (s : Nat) : Prop :=
  (∀ i < 81, 1 ≤ aget s i ∧ aget s i ≤ 9) ∧
  (∀ i < 81, ∀ k ∈ peers i, aget s i ≠ aget s k) ∧
  (∀ i < 81, aget g.v i ≠ 0 → aget s i = aget g.v i)

/-- Entry grid of a search command. -/
def RCmd.grid : RCmd → Grid
  | .solve g => g
  | .digits g _ _ _ => g

/-- Solution-goodness precondition of a search command: all invariant layers
hold, the branch cell is real, the pending digits are real, and the
solutions already accumulated are good. -/
def RPre : RCmd → Prop
  | .solve g => WFbase g ∧ WFq g ∧ WFpeer g ∧ pendingQ g = []
  | .digits g i ds acc => WFbase g ∧ WFq g ∧ WFpeer g ∧ pendingQ g = [] ∧ i < 81 ∧
      (∀ n ∈ ds, 1 ≤ n ∧ n ≤ 9) ∧ (∀ s ∈ acc, GoodFrom g s)

/-- Claim C7 core induction: every solution returned by the search is a good
solution relative to the grid the search started from. -/
theorem rrun_good (fuel : Nat) : ∀ cmd l, RPre cmd → rrun fuel cmd = some l →
    ∀ s ∈ l, GoodFrom cmd.grid s := by
  induction fuel with
  | zero => intro cmd l _ h; simp [rrun] at h
  | succ f ih =>
    intro cmd l hpre h
    match cmd with
    | .solve g =>
      obtain ⟨hwfb, hwfq, hwfp, hpend⟩ := hpre
      rw [rrun.eq_def] at h
      dsimp only at h
      split at h
      · rename_i hn81
        simp only [Option.some.injEq] at h
        subst h
        intro s hs
        rw [List.mem_singleton] at hs
        subst hs
        obtain ⟨h19, hdist⟩ := complete_good g hwfb hwfp hn81
        exact ⟨h19, hdist, fun i _ _ => rfl⟩
      · rename_i hn81
        exact ih (.digits g (searchMin g) digits9 []) l
          ⟨hwfb, hwfq, hwfp, hpend, searchMin_lt g hwfb hn81, by decide,
           fun s hs => absurd hs (List.not_mem_nil s)⟩ h
    | .digits g i ds acc =>
      obtain ⟨hwfb, hwfq, hwfp, hpend, hi, hds, hacc⟩ := hpre
      rw [rrun.eq_def] at h
      dsimp only at h
      split at h
      · simp only [Option.some.injEq] at h
        subst h
        exact hacc
      · rename_i n rest
        obtain ⟨hn1, hn9⟩ := hds n (List.mem_cons_self _ _)
        have hrest : ∀ m ∈ rest, 1 ≤ m ∧ m ≤ 9 :=
          fun m hm => hds m (List.mem_cons_of_mem _ hm)
        split at h
        · rename_i hbit
          split at h
          · exact Option.noConfusion h
          · exact ih (.digits g i rest acc) l
              ⟨hwfb, hwfq, hwfp, hpend, hi, hrest, hacc⟩ h
          · exact Option.noConfusion h
          · rename_i t u heq
            have hwfbt : WFbase t :=
              mrun_wfbase f (.mark g i n) t (.ok u) ⟨hwfb, hi, hn1, hn9⟩ heq
            have hq := ((mrun_wfq f (.mark g i n) t (.ok ())
              ⟨hwfb, hwfq, by rw [hpend]; exact List.not_mem_nil i, hi, hn1, hn9⟩ heq).2 rfl)
            have hwfqt : WFq t := hq.1
            have hpendt : pendingQ t = [] := by
              rcases hq.2 with h0 | h0
              · exact h0
              · rw [h0, hpend]
            have hwfpt : WFpeer t := mrun_wfpeer f (.mark g i n) t
              ⟨hwfb, hwfp, hi, hn1, hn9⟩ heq
            have hso := mrun_pure f _ _ _ heq
            dsimp only [MCmd.grid] at hso
            have hext : ∀ j < 81, aget g.v j ≠ 0 → aget t.v j = aget g.v j := by
              intro j hj hvj
              exact (hso.2.2.2 j (hwfb.assignedP j hj hvj)).2
            split at h
            · exact Option.noConfusion h
            · rename_i l1 heq1
              have hgood1 : ∀ s ∈ l1, GoodFrom g s := by
                intro s hs
                have hgood := ih (.solve t) l1 ⟨hwfbt, hwfqt, hwfpt, hpendt⟩ heq1 s hs
                dsimp only [RCmd.grid] at hgood
                obtain ⟨h19, hdist, hex⟩ := hgood
                refine ⟨h19, hdist, fun j hj hvj => ?_⟩
                rw [hex j hj (by rw [hext j hj hvj]; exact hvj), hext j hj hvj]
              exact ih (.digits g i rest (acc ++ l1)) l
                ⟨hwfb, hwfq, hwfp, hpend, hi, hrest, fun s hs => by
                  rcases List.mem_append.mp hs with hs | hs
                  · exact hacc s hs
                  · exact hgood1 s hs⟩ h
        · exact ih (.digits g i rest acc) l
            ⟨hwfb, hwfq, hwfp, hpend, hi, hrest, hacc⟩ h

/-- A successful clue-marking loop from a well-formed drained state keeps
all invariant layers, leaves `o` unchanged, and records every positive clue
of the list in the value array. -/
theorem markAllF_clues (fuel : Nat) : ∀ (is : List Nat) (g g2 : Grid),
    (∀ j ∈ is, j < 81) → (∀ j < 81, aget g.o j ≤ 9) →
    WFbase g → WFq g → WFpeer g → pendingQ g = [] →
    markAllF fuel g is = some (g2, .ok ()) →
    WFbase g2 ∧ WFq g2 ∧ WFpeer g2 ∧ pendingQ g2 = [] ∧ g2.o = g.o ∧
    (∀ i ∈ is, aget g.o i > 0 → aget g2.v i = aget g.o i) := by
  intro is
  induction is with
  | nil =>
    intro g g2 his ho hwfb hwfq hwfp hpend h
    simp only [markAllF, Option.some.injEq, Prod.mk.injEq] at h
    obtain ⟨rfl, -⟩ := h
    exact ⟨hwfb, hwfq, hwfp, hpend, rfl, fun i hi => absurd hi (List.not_mem_nil i)⟩
  | cons i rest ih =>
    intro g g2 his ho hwfb hwfq hwfp hpend h
    have hi81 : i < 81 := his i (List.mem_cons_self _ _)
    have hrest : ∀ j ∈ rest, j < 81 := fun j hj => his j (List.mem_cons_of_mem _ hj)
    simp only [markAllF] at h
    split at h
    · rename_i hoi
      have hn1 : 1 ≤ aget g.o i := hoi
      have hn9 : aget g.o i ≤ 9 := ho i hi81
      split at h
      · exact Option.noConfusion h
      · rename_i g1 u heq
        have hwfb1 : WFbase g1 :=
          mrun_wfbase fuel (.mark g i (aget g.o i)) g1 (.ok u) ⟨hwfb, hi81, hn1, hn9⟩ heq
        have hq := (mrun_wfq fuel (.mark g i (aget g.o i)) g1 (.ok ())
          ⟨hwfb, hwfq, by rw [hpend]; exact List.not_mem_nil i, hi81, hn1, hn9⟩ heq).2 rfl
        have hwfq1 : WFq g1 := hq.1
        have hpend1 : pendingQ g1 = [] := by
          rcases hq.2 with h0 | h0
          · exact h0
          · rw [h0, hpend]
        have hwfp1 : WFpeer g1 :=
          mrun_wfpeer fuel (.mark g i (aget g.o i)) g1 ⟨hwfb, hwfp, hi81, hn1, hn9⟩ heq
        have hso := mrun_pure fuel _ _ _ heq
        dsimp only [MCmd.grid] at hso
        have ho1 : g1.o = g.o := hso.1
        have hvi : aget g1.v i = aget g.o i :=
          mark_ok_value fuel g g1 i (aget g.o i) hn9 heq
        obtain ⟨hwfb2, hwfq2, hwfp2, hpend2, ho2, hcl2⟩ :=
          ih g1 g2 hrest (by rw [ho1]; exact ho) hwfb1 hwfq1 hwfp1 hpend1 h
        refine ⟨hwfb2, hwfq2, hwfp2, hpend2, by rw [ho2, ho1], ?_⟩
        intro j hj hoj
        rcases List.mem_cons.mp hj with rfl | hjrest
        · have hp1 : aget g1.p j = 0 := hwfb1.assignedP j hi81 (by rw [hvi]; omega)
          have hso2 := markAllF_stepOK fuel rest g1 g2 (.ok ()) h
          rw [(hso2.2.2.2 j hp1).2, hvi]
        · have := hcl2 j hjrest (by rw [ho1]; exact hoj)
          rw [this, ho1]
      · simp at h
    · rename_i hoi
      obtain ⟨hwfb2, hwfq2, hwfp2, hpend2, ho2, hcl2⟩ :=
        ih g g2 hrest ho hwfb hwfq hwfp hpend h
      refine ⟨hwfb2, hwfq2, hwfp2, hpend2, ho2, ?_⟩
      intro j hj hoj
      rcases List.mem_cons.mp hj with rfl | hjrest
      · omega
      · exact hcl2 j hjrest hoj

/-- The cyclically shifted complete grid: a valid solved sudoku used as a
clue set whose unique solution is itself. -/
def o81 : Nat := packList
  [1,2,3,4,5,6,7,8,9,
   4,5,6,7,8,9,1,2,3,
   7,8,9,1,2,3,4,5,6,
   2,3,4,5,6,7,8,9,1,
   5,6,7,8,9,1,2,3,4,
   8,9,1,2,3,4,5,6,7,
   3,4,5,6,7,8,9,1,2,
   6,7,8,9,1,2,3,4,5,
   9,1,2,3,4,5,6,7,8]

/-- Claim C7: for a clue array of digits, every grid in the list returned by
`resolve` is a complete assignment (all 81 cells hold a digit 1..9) in which
no cell's digit equals the digit of any of its 20 peers, and which agrees
with the original clue set on every clue cell. -/
theorem resolve_solutions_valid (fuel o : Nat) (l : List Nat)
    (ho : ∀ j < 81, aget o j ≤ 9)
    (h : resolveF fuel o = some (.ok l)) :
    ∀ s ∈ l,
      (∀ i < 81, 1 ≤ aget s i ∧ aget s i ≤ 9) ∧
      (∀ i < 81, ∀ k ∈ peers i, aget s i ≠ aget s k) ∧
      (∀ i < 81, 1 ≤ aget o i → aget s i = aget o i) := by
  unfold resolveF at h
  split at h
  · exact Option.noConfusion h
  · simp at h
  · rename_i gm u heq
    cases u
    cases hr : rrun fuel (.solve gm) with
    | none => rw [hr] at h; simp at h
    | some l1 =>
      rw [hr] at h
      simp only [Option.map_some', Option.some.injEq, Except.ok.injEq] at h
      subst h
      unfold markPhase at heq
      obtain ⟨hwfb2, hwfq2, hwfp2, hpend2, -, hcl⟩ :=
        markAllF_clues fuel (List.range 81) (reset o) gm
          (fun j hj => List.mem_range.mp hj) ho
          (reset_wfbase o) (reset_wfq o) (reset_wfpeer o) (reset_pend o) heq
      have hgood := rrun_good fuel (.solve gm) l1 ⟨hwfb2, hwfq2, hwfp2, hpend2⟩ hr
      dsimp only [RCmd.grid] at hgood
      intro s hs
      obtain ⟨h19, hdist, hext⟩ := hgood s hs
      refine ⟨h19, hdist, ?_⟩
      intro i hi hoi
      have hcli : aget gm.v i = aget o i :=
        hcl i (List.mem_range.mpr hi) hoi
      rw [hext i hi (by rw [hcli]; omega), hcli]

theorem resolve_solutions_valid_witness :
    (∀ j < 81, aget o81 j ≤ 9) ∧
    (∀ s ∈ [o81],
      (∀ i < 81, 1 ≤ aget s i ∧ aget s i ≤ 9) ∧
      (∀ i < 81, ∀ k ∈ peers i, aget s i ≠ aget s k) ∧
      (∀ i < 81, 1 ≤ aget o81 i → aget s i = aget o81 i)) :=
  ⟨by decide, resolve_solutions_valid 4096 o81 [o81] (by decide) rfl⟩

/-- The 77-clue deadly-rectangle puzzle: cells 0, 3, 9, 12 of a solved grid
are blanked so that digits 1 and 2 can be placed in the rectangle in two
ways; it has exactly two solutions and its tracked search tree is one
branching node with two successful leaves. -/
def o77 : Nat := packList
  [0,3,7,0,5,8,4,6,9,
   0,4,9,0,6,3,5,7,8,
   5,6,8,4,7,9,1,2,3,
   3,1,2,5,4,6,8,9,7,
   4,7,5,8,9,2,3,1,6,
   8,9,6,3,1,7,2,4,5,
   6,2,1,7,3,5,9,8,4,
   7,5,4,9,8,1,6,3,2,
   9,8,3,6,2,4,7,5,1]

/-- The first solution of `o77` (rectangle digits 1,2 / 2,1). -/
def solA : Nat := packList
  [1,3,7,2,5,8,4,6,9,
   2,4,9,1,6,3,5,7,8,
   5,6,8,4,7,9,1,2,3,
   3,1,2,5,4,6,8,9,7,
   4,7,5,8,9,2,3,1,6,
   8,9,6,3,1,7,2,4,5,
   6,2,1,7,3,5,9,8,4,
   7,5,4,9,8,1,6,3,2,
   9,8,3,6,2,4,7,5,1]

/-- The second solution of `o77` (rectangle digits 2,1 / 1,2). -/
def solB : Nat := packList
  [2,3,7,1,5,8,4,6,9,
   1,4,9,2,6,3,5,7,8,
   5,6,8,4,7,9,1,2,3,
   3,1,2,5,4,6,8,9,7,
   4,7,5,8,9,2,3,1,6,
   8,9,6,3,1,7,2,4,5,
   6,2,1,7,3,5,9,8,4,
   7,5,4,9,8,1,6,3,2,
   9,8,3,6,2,4,7,5,1]

/-- The decision tree the tracked search builds for `o77`: one branching
node at depth 77 with two successful leaves. -/
def treeRect : GNode :=
  .node 77 (.cons (.leaf 81 true) (.cons (.leaf 81 true) .nil))

mutual
/-- Forks of a tree versus its edge count, tree half of the mutual
induction. -/
theorem graphForks_eq_edgeCountN : ∀ t : GNode, graphForks t = edgeCount t
  | .leaf _ _ => rfl
  | .node _ ch => by
    show graphForksL ch = forestLen ch + edgeCountL ch
    have := graphForks_eq_edgeCountF ch
    omega

/-- Forks of a forest versus its edge count, forest half of the mutual
induction. -/
theorem graphForks_eq_edgeCountF : ∀ ts : GForest, graphForksL ts = edgeCountL ts + forestLen ts
  | .nil => rfl
  | .cons t ts => by
    show graphForksL ts + (graphForks t + 1) =
      edgeCount t + edgeCountL ts + (1 + forestLen ts)
    have h1 := graphForks_eq_edgeCountN t
    have h2 := graphForks_eq_edgeCountF ts
    omega
end

/-- Claim C2 counterexample: the tracked search on `o77` produces the tree
`treeRect`, whose forks value is 2 while its number of branching nodes with
more than zero children, summed recursively, is 1. -/
theorem graph_forks_cex :
    resolveTF 4096 o77 = some (.ok ([solA, solB], treeRect)) ∧
    graphForks treeRect = 2 ∧ branchNodes treeRect = 1 ∧ (2 : Nat) ≠ 1 :=
  ⟨rfl, rfl, rfl, by decide⟩

/-- Claim C2 (amended): the forks value computed by `SuDoKu__graph_forks`
for `SuDoKu_estimate` equals the total number of child edges of the decision
tree — one per child of every internal node, summed recursively — not the
number of branching nodes. -/
theorem graph_forks_eq_edges (t : GNode) : graphForks t = edgeCount t :=
  graphForks_eq_edgeCountN t

/-- Correspondence between a capped solution count and a solution-list
length: 0 and 1 are exact, the sentinel -2 stands for two or more. -/
def CntRel (u : Int) (n : Nat) : Prop :=
  (u = 0 ∧ n = 0) ∨ (u = 1 ∧ n = 1) ∨ (u = -2 ∧ 2 ≤ n)

/-- Pairing of a counting command with a search command: same grid, same
branch cell, same pending digits, and the accumulated count equal to the
accumulated list's length, still below the cap. -/
def UMatch : UCmd → RCmd → Prop
  | .solve g, .solve g2 => g = g2
  | .digits g i ds acc, .digits g2 i2 ds2 accL =>
    g = g2 ∧ i = i2 ∧ ds = ds2 ∧ acc = (accL.length : Int) ∧ accL.length ≤ 1
  | _, _ => False

/-- Every search result list extends the accumulator of its digit loop. -/
theorem rrun_digits_prefix (fuel : Nat) : ∀ g i ds acc l,
    rrun fuel (.digits g i ds acc) = some l → ∃ s, l = acc ++ s := by
  induction fuel with
  | zero => intro g i ds acc l h; simp [rrun] at h
  | succ f ih =>
    intro g i ds acc l h
    rw [rrun.eq_def] at h
    dsimp only at h
    split at h
    · simp only [Option.some.injEq] at h
      exact ⟨[], by rw [← h, List.append_nil]⟩
    · rename_i n rest
      split at h
      · split at h
        · exact Option.noConfusion h
        · exact ih g i rest acc l h
        · exact Option.noConfusion h
        · rename_i t u heq
          split at h
          · exact Option.noConfusion h
          · rename_i l1 heq1
            obtain ⟨s, hs⟩ := ih g i rest (acc ++ l1) l h
            exact ⟨l1 ++ s, by rw [hs, List.append_assoc]⟩
      · exact ih g i rest acc l h

/-- Claim C1 core induction: when the counting search and the enumerating
search both complete from matched commands, the count corresponds to the
length of the solution list. -/
theorem urun_rrun (fuel : Nat) : ∀ cu cr u l, UMatch cu cr →
    urun fuel cu = some u → rrun fuel cr = some l → CntRel u l.length := by
  induction fuel with
  | zero => intro cu cr u l _ hu hl; simp [urun] at hu
  | succ f ih =>
    intro cu cr u l hm hu hl
    match cu, cr with
    | .solve g, .solve g2 =>
      have hg : g = g2 := hm
      subst hg
      rw [urun.eq_def] at hu
      rw [rrun.eq_def] at hl
      dsimp only at hu hl
      split at hu
      · rename_i hn81
        rw [if_pos hn81] at hl
        simp only [Option.some.injEq] at hu hl
        subst hu
        subst hl
        right; left
        exact ⟨rfl, rfl⟩
      · rename_i hn81
        rw [if_neg hn81] at hl
        exact ih (.digits g (searchMin g) digits9 0)
          (.digits g (searchMin g) digits9 []) u l
          ⟨rfl, rfl, rfl, by simp, by simp⟩ hu hl
    | .digits g i ds acc, .digits g2 i2 ds2 accL =>
      obtain ⟨hg, hi, hds, hacc, hle⟩ := hm
      subst hg
      subst hi
      subst hds
      rw [urun.eq_def] at hu
      rw [rrun.eq_def] at hl
      dsimp only at hu hl
      split at hu
      · -- no digits left: both return their accumulators
        simp only [Option.some.injEq] at hu hl
        subst hu
        subst hl
        unfold CntRel
        omega
      · rename_i n rest
        dsimp only at hl
        split at hu
        · rename_i hbit
          rw [if_pos hbit] at hl
          split at hu
          · exact Option.noConfusion hu
          · -- the mark fails: both skip the digit
            rename_i t heqm
            rw [heqm] at hl
            dsimp only at hl
            exact ih (.digits g i rest acc) (.digits g i rest accL) u l
              ⟨rfl, rfl, rfl, hacc, hle⟩ hu hl
          · exact Option.noConfusion hu
          · rename_i t u0 heqm
            rw [heqm] at hl
            dsimp only at hl
            split at hu
            · exact Option.noConfusion hu
            · rename_i sc hequ
              split at hl
              · exact Option.noConfusion hl
              · rename_i l1 heqr
                have hrel := ih (.solve t) (.solve t) sc l1 rfl hequ heqr
                unfold CntRel at hrel
                split at hu
                · -- a negative sub-count propagates
                  rename_i hsc
                  simp only [Option.some.injEq] at hu
                  subst hu
                  obtain ⟨s, hs⟩ := rrun_digits_prefix f g i rest (accL ++ l1) l hl
                  unfold CntRel
                  rw [hs]
                  simp only [List.length_append]
                  omega
                · rename_i hsc
                  split at hu
                  · -- the cap is crossed: -2
                    rename_i hcap
                    simp only [Option.some.injEq] at hu
                    subst hu
                    obtain ⟨s, hs⟩ := rrun_digits_prefix f g i rest (accL ++ l1) l hl
                    unfold CntRel
                    rw [hs]
                    simp only [List.length_append]
                    refine Or.inr (Or.inr ⟨trivial, ?_⟩)
                    omega
                  · rename_i hcap
                    refine ih (.digits g i rest (acc + sc))
                      (.digits g i rest (accL ++ l1)) u l ⟨rfl, rfl, rfl, ?_, ?_⟩ hu hl
                    · simp only [List.length_append]
                      omega
                    · simp only [List.length_append]
                      omega
        · rename_i hbit
          rw [if_neg hbit] at hl
          exact ih (.digits g i rest acc) (.digits g i rest accL) u l
            ⟨rfl, rfl, rfl, hacc, hle⟩ hu hl

/-- Claim C1: for any clue array, when both computations complete on the
same fuel, `SuDoKu__unique_sol` returns 1 exactly when `resolve` on the same
clue set returns a result list of exactly one solution (in particular for
every grid the Generator's reduction phase queries). -/
theorem unique_sol_consistent (fuel o : Nat) (u : Int) (r : Except SErr (List Nat))
    (hu : uniqueSolF fuel o = some u) (hr : resolveF fuel o = some r) :
    u = 1 ↔ ∃ l, r = .ok l ∧ l.length = 1 := by
  unfold uniqueSolF at hu
  unfold resolveF at hr
  split at hu
  · exact Option.noConfusion hu
  · rename_i gm e heq
    rw [heq] at hr
    dsimp only at hr
    simp only [Option.some.injEq] at hu hr
    subst hu
    subst hr
    constructor
    · intro h1
      exact absurd h1 (by decide)
    · rintro ⟨l, hl, -⟩
      exact Except.noConfusion hl
  · rename_i gm u0 heq
    rw [heq] at hr
    dsimp only at hr
    cases hrr : rrun fuel (.solve gm) with
    | none => rw [hrr] at hr; simp at hr
    | some l =>
      rw [hrr] at hr
      simp only [Option.map_some', Option.some.injEq] at hr
      subst hr
      have hrel := urun_rrun fuel (.solve gm) (.solve gm) u l rfl hu hrr
      unfold CntRel at hrel
      constructor
      · intro h1
        refine ⟨l, rfl, ?_⟩
        omega
      · rintro ⟨l2, hl2, hlen⟩
        have : l2 = l := by
          injection hl2 with h
          exact h.symm
        subst this
        omega

theorem unique_sol_consistent_witness :
    (1 : Int) = 1 ↔ ∃ l, (Except.ok [o81] : Except SErr (List Nat)) = .ok l ∧ l.length = 1 :=
  unique_sol_consistent 4096 o81 1 (.ok [o81]) rfl rfl

/-- A newline or carriage return is skipped by the significant filter. -/
theorem sigChars_cons_skip (ch : Char) (rest : List Char) (h : ch = '\n' ∨ ch = '\r') :
    sigChars (ch :: rest) = sigChars rest := by
  rcases h with rfl | rfl <;> simp [sigChars]

/-- Any other character is significant. -/
theorem sigChars_cons_sig (ch : Char) (rest : List Char) (h : ¬(ch = '\n' ∨ ch = '\r')) :
    sigChars (ch :: rest) = ch :: sigChars rest := by
  push_neg at h
  simp [sigChars, h.1, h.2]

/-- Full characterization of one scan-loop result: success, the two length
errors and the invalid-character error, in terms of the significant
characters still to be consumed and the room `81 - i` left in the grid. -/
def LoopSpec (s : List Char) (i : Nat) (r : Except FmtErr Nat) : Prop :=
  ((∃ o2, r = .ok o2) ↔
      ((sigChars s).length = 81 - i ∧ ∀ ch ∈ sigChars s, validChar ch)) ∧
  (r = .error .notEnough ↔
      ((sigChars s).length < 81 - i ∧ ∀ ch ∈ sigChars s, validChar ch)) ∧
  (r = .error .tooMuch ↔
      (81 - i < (sigChars s).length ∧ ∀ ch ∈ (sigChars s).take (81 - i), validChar ch)) ∧
  (∀ c, r = .error (.invalidChar c) ↔
      ∃ pre suf, sigChars s = pre ++ c :: suf ∧ pre.length < 81 - i ∧
        (∀ ch ∈ pre, validChar ch) ∧ ¬validChar c)

/-- Consuming one valid significant character steps the characterization. -/
theorem loopSpec_cons_valid (ch : Char) (rest : List Char) (i : Nat) (hi : i < 81)
    (hv : validChar ch) (hsig : ¬(ch = '\n' ∨ ch = '\r'))
    (r : Except FmtErr Nat) (hr : LoopSpec rest (i + 1) r) :
    LoopSpec (ch :: rest) i r := by
  obtain ⟨hok, hne, htm, hic⟩ := hr
  unfold LoopSpec
  rw [sigChars_cons_sig ch rest hsig]
  refine ⟨?_, ?_, ?_, ?_⟩
  · rw [hok]
    simp only [List.length_cons, List.mem_cons]
    constructor
    · rintro ⟨h1, h2⟩
      refine ⟨by omega, fun c2 hc2 => ?_⟩
      rcases hc2 with rfl | hc2
      · exact hv
      · exact h2 c2 hc2
    · rintro ⟨h1, h2⟩
      exact ⟨by omega, fun c2 hc2 => h2 c2 (Or.inr hc2)⟩
  · rw [hne]
    simp only [List.length_cons, List.mem_cons]
    constructor
    · rintro ⟨h1, h2⟩
      refine ⟨by omega, fun c2 hc2 => ?_⟩
      rcases hc2 with rfl | hc2
      · exact hv
      · exact h2 c2 hc2
    · rintro ⟨h1, h2⟩
      exact ⟨by omega, fun c2 hc2 => h2 c2 (Or.inr hc2)⟩
  · rw [htm]
    have htake : (ch :: sigChars rest).take (81 - i) =
        ch :: (sigChars rest).take (81 - (i + 1)) := by
      obtain ⟨m2, hm⟩ : ∃ m2, 81 - i = m2 + 1 := ⟨81 - i - 1, by omega⟩
      have hm2 : 81 - (i + 1) = m2 := by omega
      rw [hm, hm2, List.take_succ_cons]
    rw [htake]
    simp only [List.length_cons, List.mem_cons]
    constructor
    · rintro ⟨h1, h2⟩
      refine ⟨by omega, fun c2 hc2 => ?_⟩
      rcases hc2 with rfl | hc2
      · exact hv
      · exact h2 c2 hc2
    · rintro ⟨h1, h2⟩
      exact ⟨by omega, fun c2 hc2 => h2 c2 (Or.inr hc2)⟩
  · intro c
    rw [hic c]
    constructor
    · rintro ⟨pre, suf, hdec, hlen, hall, hnv⟩
      refine ⟨ch :: pre, suf, by rw [hdec, List.cons_append], by simp; omega, fun c2 hc2 => ?_, hnv⟩
      rcases List.mem_cons.mp hc2 with rfl | hc2
      · exact hv
      · exact hall c2 hc2
    · rintro ⟨pre, suf, hdec, hlen, hall, hnv⟩
      cases pre with
      | nil =>
        simp only [List.nil_append, List.cons.injEq] at hdec
        exact absurd (hdec.1 ▸ hv) hnv
      | cons p pre2 =>
        simp only [List.cons_append, List.cons.injEq] at hdec
        refine ⟨pre2, suf, hdec.2, by simp at hlen; omega,
          fun c2 hc2 => hall c2 (List.mem_cons_of_mem _ hc2), hnv⟩

/-- The scan loop satisfies the characterization from any position of the
grid, by induction over the input. -/
theorem fromStrLoop_spec : ∀ (s : List Char) (o i : Nat), i ≤ 81 →
    LoopSpec s i (fromStrLoop o i s) := by
  intro s
  induction s with
  | nil =>
    intro o i hi
    by_cases h81 : i < 81
    · have hres : fromStrLoop o i [] = .error .notEnough := by
        simp only [fromStrLoop]
        rw [if_pos h81]
      unfold LoopSpec
      rw [hres]
      refine ⟨?_, ?_, ?_, ?_⟩
      · constructor
        · rintro ⟨o2, ho2⟩
          exact Except.noConfusion ho2
        · rintro ⟨h1, -⟩
          simp only [sigChars, List.filter_nil, List.length_nil] at h1
          omega
      · constructor
        · intro
          exact ⟨by simp only [sigChars, List.filter_nil, List.length_nil]; omega,
            by simp [sigChars]⟩
        · intro
          rfl
      · constructor
        · intro h
          simp at h
        · rintro ⟨h1, -⟩
          simp only [sigChars, List.filter_nil, List.length_nil] at h1
          omega
      · intro c
        constructor
        · intro h
          simp at h
        · rintro ⟨pre, suf, hdec, -⟩
          simp only [sigChars, List.filter_nil] at hdec
          exact absurd hdec.symm (List.append_ne_nil_of_right_ne_nil pre (by simp))
    · have hieq : i = 81 := by omega
      have hres : fromStrLoop o i [] = .ok o := by
        simp only [fromStrLoop]
        rw [if_neg h81]
      unfold LoopSpec
      rw [hres]
      refine ⟨?_, ?_, ?_, ?_⟩
      · constructor
        · intro
          exact ⟨by simp only [sigChars, List.filter_nil, List.length_nil]; omega,
            by simp [sigChars]⟩
        · intro
          exact ⟨o, rfl⟩
      · constructor
        · intro h
          exact Except.noConfusion h
        · rintro ⟨h1, -⟩
          simp only [sigChars, List.filter_nil, List.length_nil] at h1
          omega
      · constructor
        · intro h
          exact Except.noConfusion h
        · rintro ⟨h1, -⟩
          simp only [sigChars, List.filter_nil, List.length_nil] at h1
          omega
      · intro c
        constructor
        · intro h
          exact Except.noConfusion h
        · rintro ⟨pre, suf, hdec, -⟩
          simp only [sigChars, List.filter_nil] at hdec
          exact absurd hdec.symm (List.append_ne_nil_of_right_ne_nil pre (by simp))
  | cons ch rest ih =>
    intro o i hi
    by_cases hnl : ch = '\n' ∨ ch = '\r'
    · have hres : fromStrLoop o i (ch :: rest) = fromStrLoop o i rest := by
        simp only [fromStrLoop]
        rw [if_pos hnl]
      have hspec := ih o i hi
      unfold LoopSpec at hspec ⊢
      rw [hres, sigChars_cons_skip ch rest hnl]
      exact hspec
    · by_cases h81 : 81 ≤ i
      · have hres : fromStrLoop o i (ch :: rest) = .error .tooMuch := by
          simp only [fromStrLoop]
          rw [if_neg hnl, if_pos h81]
        have hieq : 81 - i = 0 := by omega
        unfold LoopSpec
        rw [hres, sigChars_cons_sig ch rest hnl, hieq]
        refine ⟨?_, ?_, ?_, ?_⟩
        · constructor
          · rintro ⟨o2, ho2⟩
            exact Except.noConfusion ho2
          · rintro ⟨h1, -⟩
            simp at h1
        · constructor
          · intro h
            simp at h
          · rintro ⟨h1, -⟩
            omega
        · constructor
          · intro
            exact ⟨by simp, by simp⟩
          · intro
            rfl
        · intro c
          constructor
          · intro h
            simp at h
          · rintro ⟨pre, suf, -, hlen, -⟩
            omega
      · push_neg at h81
        by_cases hdig : '1' ≤ ch ∧ ch ≤ '9'
        · have hres : fromStrLoop o i (ch :: rest) =
              fromStrLoop (aset o i (ch.toNat - 48)) (i + 1) rest := by
            simp only [fromStrLoop]
            rw [if_neg hnl, if_neg (by omega), if_pos hdig]
          rw [hres]
          exact loopSpec_cons_valid ch rest i h81 (by unfold validChar; exact Or.inl hdig)
            hnl _ (ih (aset o i (ch.toNat - 48)) (i + 1) (by omega))
        · by_cases hbl : ch = '_' ∨ ch = '-' ∨ ch = ' ' ∨ ch = '.' ∨ ch = '0'
          · have hres : fromStrLoop o i (ch :: rest) = fromStrLoop o (i + 1) rest := by
              simp only [fromStrLoop]
              rw [if_neg hnl, if_neg (by omega), if_neg hdig, if_pos hbl]
            rw [hres]
            exact loopSpec_cons_valid ch rest i h81 (by unfold validChar; exact Or.inr hbl)
              hnl _ (ih o (i + 1) (by omega))
          · have hnv : ¬validChar ch := by
              unfold validChar
              tauto
            have hres : fromStrLoop o i (ch :: rest) = .error (.invalidChar ch) := by
              simp only [fromStrLoop]
              rw [if_neg hnl, if_neg (by omega), if_neg hdig, if_neg hbl]
            unfold LoopSpec
            rw [hres, sigChars_cons_sig ch rest hnl]
            refine ⟨?_, ?_, ?_, ?_⟩
            · constructor
              · rintro ⟨o2, ho2⟩
                exact Except.noConfusion ho2
              · rintro ⟨-, h2⟩
                exact absurd (h2 ch (List.mem_cons_self _ _)) hnv
            · constructor
              · intro h
                simp at h
              · rintro ⟨-, h2⟩
                exact absurd (h2 ch (List.mem_cons_self _ _)) hnv
            · constructor
              · intro h
                simp at h
              · rintro ⟨h1, h2⟩
                have hmem : ch ∈ (ch :: sigChars rest).take (81 - i) := by
                  obtain ⟨m2, hm⟩ : ∃ m2, 81 - i = m2 + 1 := ⟨81 - i - 1, by omega⟩
                  rw [hm, List.take_succ_cons]
                  exact List.mem_cons_self _ _
                exact absurd (h2 ch hmem) hnv
            · intro c
              constructor
              · intro h
                have hc : ch = c := by
                  injection h with h2
                  injection h2
                subst hc
                exact ⟨[], sigChars rest, by simp, by simp; omega, by simp, hnv⟩
              · rintro ⟨pre, suf, hdec, hlen, hall, hnvc⟩
                cases pre with
                | nil =>
                  simp only [List.nil_append, List.cons.injEq] at hdec
                  rw [hdec.1]
                | cons p pre2 =>
                  simp only [List.cons_append, List.cons.injEq] at hdec
                  exact absurd (hdec.1 ▸ hall p (List.mem_cons_self _ _)) hnv

/-- Claim C9 (amended): `from_string` succeeds exactly when, after ignoring
newlines and carriage returns, the input has exactly 81 significant
characters, all drawn from the digits 1-9 and the blanks. Its errors obey a
precedence: an invalid-character error is raised exactly when an
unrecognized character occurs among the first 81 significant characters
(after a recognized prefix), whatever the input length; "not enough data"
exactly when fewer than 81 significant characters are present and all of
them are recognized; "too much data" exactly when more than 81 are present
and the first 81 are all recognized. -/
theorem from_string_spec (o : Nat) (s : List Char) :
    ((∃ o2, fromString o s = .ok o2) ↔
        ((sigChars s).length = 81 ∧ ∀ ch ∈ sigChars s, validChar ch)) ∧
    (fromString o s = .error .notEnough ↔
        ((sigChars s).length < 81 ∧ ∀ ch ∈ sigChars s, validChar ch)) ∧
    (fromString o s = .error .tooMuch ↔
        (81 < (sigChars s).length ∧ ∀ ch ∈ (sigChars s).take 81, validChar ch)) ∧
    (∀ c, fromString o s = .error (.invalidChar c) ↔
        ∃ pre suf, sigChars s = pre ++ c :: suf ∧ pre.length < 81 ∧
          (∀ ch ∈ pre, validChar ch) ∧ ¬validChar c) :=
  fromStrLoop_spec s o 0 (by omega)

/-- Claim C9 counterexample: the input "x" has fewer than 81 significant
characters, yet `from_string` does not fail with "not enough data" — the
invalid character takes precedence. -/
theorem from_string_precedence_cex :
    fromString 0 [ 'x' ] = .error (.invalidChar 'x') ∧
    (sigChars [ 'x' ]).length < 81 ∧
    fromString 0 [ 'x' ] ≠ .error .notEnough :=
  ⟨rfl, by decide, by decide⟩

/-- A digit character's code point lies between 49 and 57. -/
theorem char_digit_toNat {c : Char} (h : '1' ≤ c ∧ c ≤ '9') :
    49 ≤ c.toNat ∧ c.toNat ≤ 57 := by
  have h1 := Char.le_def.mp h.1
  have h2 := Char.le_def.mp h.2
  constructor
  · simpa [Char.toNat] using h1
  · simpa [Char.toNat] using h2

/-- Frame behaviour of a successful scan: positions before the cursor and at
81 or beyond are untouched; each position at or after the cursor is written
with its significant character's digit value exactly when that character is
a digit, and retains its prior value otherwise. -/
theorem fromStrLoop_frame : ∀ (s : List Char) (o i o2 : Nat),
    fromStrLoop o i s = .ok o2 →
    (∀ j, j < i ∨ 81 ≤ j → aget o2 j = aget o j) ∧
    (∀ j, i ≤ j → j < 81 →
      (('1' ≤ (sigChars s).getD (j - i) ' ' ∧ (sigChars s).getD (j - i) ' ' ≤ '9') →
        aget o2 j = ((sigChars s).getD (j - i) ' ').toNat - 48) ∧
      (¬('1' ≤ (sigChars s).getD (j - i) ' ' ∧ (sigChars s).getD (j - i) ' ' ≤ '9') →
        aget o2 j = aget o j)) := by
  intro s
  induction s with
  | nil =>
    intro o i o2 h
    simp only [fromStrLoop] at h
    split at h
    · exact Except.noConfusion h
    · rename_i h81
      simp only [Except.ok.injEq] at h
      subst h
      exact ⟨fun j _ => rfl, fun j hij hj81 => absurd hj81 (by omega)⟩
  | cons ch rest ih =>
    intro o i o2 h
    simp only [fromStrLoop] at h
    split at h
    · rename_i hnl
      rw [sigChars_cons_skip ch rest hnl]
      exact ih o i o2 h
    · rename_i hnl
      split at h
      · exact Except.noConfusion h
      · rename_i h81
        rw [sigChars_cons_sig ch rest hnl]
        split at h
        · rename_i hdig
          obtain ⟨h49, h57⟩ := char_digit_toNat hdig
          have hdlt : ch.toNat - 48 < 65536 := by omega
          obtain ⟨hf, hrec⟩ := ih (aset o i (ch.toNat - 48)) (i + 1) o2 h
          refine ⟨?_, ?_⟩
          · intro j hj
            have hji : j ≠ i := by omega
            rw [hf j (by omega)]
            exact aget_aset_ne o (ch.toNat - 48) hdlt hji
          · intro j hij hj81
            rcases eq_or_ne j i with rfl | hne
            · rw [Nat.sub_self]
              simp only [List.getD_cons_zero]
              refine ⟨fun _ => ?_, fun hnd => absurd hdig hnd⟩
              rw [hf j (Or.inl (by omega))]
              exact aget_aset_self o j (ch.toNat - 48) hdlt
            · have hsub : j - i = (j - (i + 1)) + 1 := by omega
              rw [hsub]
              simp only [List.getD_cons_succ]
              have hr := hrec j (by omega) hj81
              refine ⟨hr.1, fun hnd => ?_⟩
              rw [hr.2 hnd]
              exact aget_aset_ne o (ch.toNat - 48) hdlt hne
        · rename_i hdig
          split at h
          · obtain ⟨hf, hrec⟩ := ih o (i + 1) o2 h
            refine ⟨fun j hj => hf j (by omega), ?_⟩
            intro j hij hj81
            rcases eq_or_ne j i with rfl | hne
            · rw [Nat.sub_self]
              simp only [List.getD_cons_zero]
              exact ⟨fun hd => absurd hd hdig, fun _ => hf j (Or.inl (by omega))⟩
            · have hsub : j - i = (j - (i + 1)) + 1 := by omega
              rw [hsub]
              simp only [List.getD_cons_succ]
              exact hrec j (by omega) hj81
          · exact Except.noConfusion h

/-- Claim C10: on every successful `from_string` call, a position whose
significant character is a digit receives that digit's value, and a position
whose significant character is a blank retains whatever value `original`
held before the call. -/
theorem from_string_blank_frame (o o2 : Nat) (s : List Char)
    (h : fromString o s = .ok o2) :
    ∀ j < 81,
      (¬('1' ≤ (sigChars s).getD j ' ' ∧ (sigChars s).getD j ' ' ≤ '9') →
        aget o2 j = aget o j) ∧
      (('1' ≤ (sigChars s).getD j ' ' ∧ (sigChars s).getD j ' ' ≤ '9') →
        aget o2 j = ((sigChars s).getD j ' ').toNat - 48) := by
  intro j hj
  obtain ⟨-, hrec⟩ := fromStrLoop_frame s o 0 o2 h
  have hr := hrec j (by omega) hj
  rw [Nat.sub_zero] at hr
  exact ⟨hr.2, hr.1⟩

/-- The prior clue array of the retention witness: a 5 at every cell. -/
def oC10 : Nat := packList (List.replicate 81 5)

/-- The input of the retention witness: the digit 1 then 80 blanks. -/
def sC10 : List Char := '1' :: List.replicate 80 '_'

theorem from_string_blank_frame_witness :
    fromString oC10 sC10 = .ok (aset oC10 0 1) ∧
    (∀ j < 81,
      (¬('1' ≤ (sigChars sC10).getD j ' ' ∧ (sigChars sC10).getD j ' ' ≤ '9') →
        aget (aset oC10 0 1) j = aget oC10 j) ∧
      (('1' ≤ (sigChars sC10).getD j ' ' ∧ (sigChars sC10).getD j ' ' ≤ '9') →
        aget (aset oC10 0 1) j = ((sigChars sC10).getD j ' ').toNat - 48)) :=
  ⟨by decide, from_string_blank_frame oC10 (aset oC10 0 1) sC10 (by decide)⟩
